import Mathlib

/-!
Verification of the import-rewriting engine of
`src/extensions/positron-python/scripts/vendor.py`.

The engine operates on raw text with Python `re` patterns, all anchored at
line starts (`^...` with `re.MULTILINE`).  We embed text as `List Char` and
give each of the four concrete patterns used by `rewrite_file_imports` its
exact matching semantics (greedy `\s*` runs that may span newlines, the
`(\s|$)` alternative, the `(?=\s+as)` lookahead, leftmost matching, and the
global-substitution scan of `re.sub`).  The directory walk of
`rewrite_imports` and the scan of `detect_vendored_libs` are embedded over a
tree model of the destination directory.
-/

namespace Vendor

/-- Python source text, modelled as a list of characters. -/
abbrev Text := List Char

/-- The Python regex class `\s` (restricted to its ASCII members, which is
exact for the source files the script rewrites): space, tab, newline,
carriage return, vertical tab, form feed. -/
def pyIsSpace (c : Char) : Bool :=
  c == ' ' || c == '\t' || c == '\n' || c == '\r' || c == '\x0b' || c == '\x0c'

/-- Characters allowed in (ASCII) Python identifiers.  Detected library
names made of these characters contain no regex metacharacters, so the
source's interpolation of the name into a pattern is literal matching. -/
def pyIsIdentChar (c : Char) : Bool :=
  (97 ≤ c.toNat && c.toNat ≤ 122) || (65 ≤ c.toNat && c.toNat ≤ 90) ||
    (48 ≤ c.toNat && c.toNat ≤ 57) || c == '_'

/-- A plausible library name: nonempty and made of identifier characters. -/
def isIdentText (t : Text) : Bool := !t.isEmpty && t.all pyIsIdentChar

/-- Greedy `\s*`: the longest whitespace prefix, and the remainder. -/
def takeSpaces : Text → Text × Text
  | [] => ([], [])
  | c :: cs =>
    if pyIsSpace c then
      let p := takeSpaces cs
      (c :: p.1, p.2)
    else ([], c :: cs)

/-- Greedy `\S*`: the longest non-whitespace prefix, and the remainder. -/
def takeSolid : Text → Text × Text
  | [] => ([], [])
  | c :: cs =>
    if pyIsSpace c then ([], c :: cs)
    else
      let p := takeSolid cs
      (c :: p.1, p.2)

/-- Strip a literal pattern from the front of the text, returning the
remainder on success. -/
def dropLit? : Text → Text → Option Text
  | [], s => some s
  | _ :: _, [] => none
  | p :: ps, c :: cs => if p = c then dropLit? ps cs else none

/-- The literal `import ` (keyword plus the space of the source patterns). -/
def importKw : Text := ("import ").toList

/-- The literal `from `. -/
def fromKw : Text := ("from ").toList

/-- One attempt, at a line start, of the source pattern
`^(\s*)import {lib}(\s|$)` with replacement
`\1from {namespace} import {lib}\2` (vendor.py lines 201-206).
On success, returns the replacement text, the input remaining after the
matched span, and whether the position after the span is a line start.
The branch `some []` is the `$` alternative at end of input (group 2
empty); the alternative `\s` is preferred by Python when a character is
available, and the literal after `\s*` begins with the non-space `i`, so
greedy matching of `\s*` needs no backtracking. -/
def matchPlain (ns lib : Text) (s : Text) : Option (Text × Text × Bool) :=
  match dropLit? (importKw ++ lib) (takeSpaces s).2 with
  | none => none
  | some [] => some ((takeSpaces s).1 ++ fromKw ++ ns ++ (" import ").toList ++ lib, [], false)
  | some (c :: rest) =>
    if pyIsSpace c then
      some ((takeSpaces s).1 ++ fromKw ++ ns ++ (" import ").toList ++ lib ++ [c], rest, c == '\n')
    else none

/-- One attempt, at a line start, of the source pattern
`^(\s*)import {lib}(\.\S+)(?=\s+as)` with replacement
`\1import {namespace}.{lib}\2` (vendor.py lines 208-213).
Group 2 is a dot followed by the maximal nonempty `\S+` run; the lookahead
requires at least one whitespace character and then the literal `as`, and
consumes nothing, so the remaining input starts right after group 2. -/
def matchAliased (ns lib : Text) (s : Text) : Option (Text × Text × Bool) :=
  match dropLit? (importKw ++ lib) (takeSpaces s).2 with
  | none => none
  | some ('.' :: s3) =>
    if (takeSolid s3).1.isEmpty then none
    else
      if (takeSpaces (takeSolid s3).2).1.isEmpty then none
      else
        match dropLit? (("as").toList) (takeSpaces (takeSolid s3).2).2 with
        | none => none
        | some _ =>
          some ((takeSpaces s).1 ++ importKw ++ ns ++ ['.'] ++ lib ++ ['.'] ++ (takeSolid s3).1,
            (takeSolid s3).2, false)
  | some _ => none

/-- One attempt, at a line start, of the source pattern
`^(\s*)from {lib}(\.|\s)` with replacement `\1from {namespace}.{lib}\2`
(vendor.py lines 236-241). -/
def matchFromImport (ns lib : Text) (s : Text) : Option (Text × Text × Bool) :=
  match dropLit? (fromKw ++ lib) (takeSpaces s).2 with
  | none => none
  | some [] => none
  | some (c :: rest) =>
    if c = '.' || pyIsSpace c then
      some ((takeSpaces s).1 ++ fromKw ++ ns ++ ['.'] ++ lib ++ [c], rest, c == '\n')
    else none

/-- The scanning loop of `re.sub` for a `^`-anchored MULTILINE pattern:
positions are scanned left to right, a match is attempted exactly at line
starts, a successful match emits the replacement and resumes after the
matched span, and all other characters are copied.  `fuel` bounds the
recursion; with `fuel = s.length` it never runs out because every match
of the patterns above consumes at least one character. -/
def subScan (m : Text → Option (Text × Text × Bool)) : Nat → Bool → Text → Text
  | 0, _, s => s
  | _ + 1, _, [] => []
  | fuel + 1, atLS, c :: cs =>
    if atLS then
      match m (c :: cs) with
      | some (rep, rest, ls) => rep ++ subScan m fuel ls rest
      | none => c :: subScan m fuel (c == '\n') cs
    else c :: subScan m fuel (c == '\n') cs

/-- `re.sub` over whole text for a `^`-anchored MULTILINE pattern. -/
def reSubAnchored (m : Text → Option (Text × Text × Bool)) (s : Text) : Text :=
  subScan m s.length true s

/-- One attempt, at a line start, of the search pattern
`^\s*(import {lib}\.\S+)` (vendor.py lines 217-221).  Returns group 1:
the literal `import {lib}.` followed by the maximal nonempty `\S+` run.
The leading `\s*` is outside the group. -/
def matchDotted (lib : Text) (s : Text) : Option Text :=
  match dropLit? (importKw ++ lib ++ ['.']) (takeSpaces s).2 with
  | none => none
  | some s2 =>
    if (takeSolid s2).1.isEmpty then none
    else some (importKw ++ lib ++ ['.'] ++ (takeSolid s2).1)

/-- The scanning loop of `re.search` for the `^`-anchored MULTILINE
dotted-import pattern: positions are scanned left to right and the
pattern is attempted at each line start; the first success returns the
match start offset (in characters from the beginning of the text) and
group 1. -/
def searchScan (lib : Text) : Bool → Nat → Text → Option (Nat × Text)
  | _, _, [] => none
  | atLS, pos, c :: cs =>
    if atLS then
      match matchDotted lib (c :: cs) with
      | some g => some (pos, g)
      | none => searchScan lib (c == '\n') (pos + 1) cs
    else searchScan lib (c == '\n') (pos + 1) cs

/-- `re.search` of `^\s*(import {lib}\.\S+)` over the whole text. -/
def searchDotted (lib t : Text) : Option (Nat × Text) := searchScan lib true 0 t

/-- `text.count("\n", 0, k)`: newline characters among the first `k`. -/
def countNl (t : Text) (k : Nat) : Nat :=
  ((t.take k).filter (fun c => c == '\n')).length

/-- The error raised by the source on an unaliased dotted import
(vendor.py lines 222-233), carrying the data interpolated into its
message: the offending file's path, the 1-based line number, and the
matched import statement (group 1 of the search pattern). -/
structure VendoringError where
  file : Text
  lineNumber : Nat
  offending : Text
deriving DecidableEq

/-- Decimal rendering of a number, as Python's f-string interpolation. -/
def natText (n : Nat) : Text := Nat.toDigits 10 n

/-- The message string built by the source when raising `VendoringError`. -/
def VendoringError.message (e : VendoringError) : Text :=
  ("Encountered import that cannot be transformed for a namespace.\nFile \x22").toList
    ++ e.file ++ ("\x22, line ").toList ++ natText e.lineNumber
    ++ ("\n  ").toList ++ e.offending
    ++ ("\n\nYou will need to add a patch, that adapts the code to avoid a `import dotted.name` style import here; since those cannot be transformed for importing via a namespace.").toList

/-- `small` occurs contiguously inside `big`. -/
def ContainsSub (big small : Text) : Prop := ∃ a b, big = a ++ small ++ b

/-- The body of the per-library loop of `rewrite_file_imports`
(vendor.py lines 200-241): rule 1 (plain import), then rule 2 (aliased
dotted import), then the fatal search for a remaining unaliased dotted
statement — whose line number is one plus the count of newlines before
the match start in the current text — then rule 4 (from-import). -/
def processLib (item ns lib text : Text) : Except VendoringError Text :=
  let t1 := reSubAnchored (matchPlain ns lib) text
  let t2 := reSubAnchored (matchAliased ns lib) t1
  match searchDotted lib t2 with
  | some pg => Except.error ⟨item, countNl t2 pg.1 + 1, pg.2⟩
  | none => Except.ok (reSubAnchored (matchFromImport ns lib) t2)

/-- The `for lib in vendored_libs` loop: libraries processed in order, a
raised error aborting the rest of the loop. -/
def rewriteLibs (item ns : Text) : List Text → Text → Except VendoringError Text
  | [], text => Except.ok text
  | lib :: libs, text =>
    match processLib item ns lib text with
    | Except.ok t => rewriteLibs item ns libs t
    | Except.error e => Except.error e

/-- The substitution loop of `rewrite_file_imports` (vendor.py lines
193-196): each caller-supplied rule — a global `re.sub` of its pattern,
here abstracted as a text transformer — is applied in order over the whole
current text, later rules seeing the output of earlier rules. -/
def applySubstitutions (subs : List (Text → Text)) (text : Text) : Text :=
  subs.foldl (fun t f => f t) text

/-- `rewrite_file_imports` on one file of content `text` (vendor.py lines
183-243): substitutions first, then — only for a non-empty namespace —
the per-library import rules.  Returns the file's on-disk content after
the call together with the raised error, if any: `item.write_text` is the
last statement of the function, so when `VendoringError` is raised inside
the loop the write is never reached and the file keeps its original
content. -/
def rewrite_file_imports (item ns : Text) (libs : List Text)
    (subs : List (Text → Text)) (text : Text) : Text × Option VendoringError :=
  let t := applySubstitutions subs text
  if ns = [] then (t, none)
  else
    match rewriteLibs item ns libs t with
    | Except.ok t2 => (t2, none)
    | Except.error e => (text, some e)

mutual
/-- A file-system entry: a file with content, or a directory. -/
inductive FSTree where
  | file (name content : Text) : FSTree
  | dir (name : Text) (children : FSForest) : FSTree
deriving DecidableEq
/-- The ordered children of a directory (`Path.iterdir` order). -/
inductive FSForest where
  | nil : FSForest
  | cons (t : FSTree) (ts : FSForest) : FSForest
deriving DecidableEq
end
/-- Path of an entry inside its parent directory. -/
def childPath (p n : Text) : Text := p ++ ['/'] ++ n

/-- `name.endswith(".py")`. -/
def endsPy (n : Text) : Bool := (".py").toList.isSuffixOf n

/-- `name[:-3]`: the stem with the `.py` extension stripped. -/
def dropPy (n : Text) : Text := n.take (n.length - 3)

/-- `detect_vendored_libs` (vendor.py lines 156-166) over the top-level
entries of the destination directory, in iteration order: directories
contribute their name, `.py` files their stem; any other file is reported
(the source prints it) and skipped.  Returns the collected library names
and the reported unexpected files. -/
def detect_vendored_libs : FSForest → List Text × List Text
  | .nil => ([], [])
  | .cons (.dir n _) ts =>
    let p := detect_vendored_libs ts
    (n :: p.1, p.2)
  | .cons (.file n _) ts =>
    let p := detect_vendored_libs ts
    if endsPy n then (dropPy n :: p.1, p.2) else (p.1, n :: p.2)

mutual
/-- One entry of the walk of `rewrite_imports` (vendor.py lines 169-179):
directories are recursed into, `.py` files are rewritten in place, and any
other file is left alone.  Returns the entry's state on disk after the
call and the raised error, if any. -/
def rewriteTree (ns : Text) (libs : List Text) (subs : List (Text → Text))
    (path : Text) : FSTree → FSTree × Option VendoringError
  | .file n c =>
    if endsPy n then
      let r := rewrite_file_imports (childPath path n) ns libs subs c
      (.file n r.1, r.2)
    else (.file n c, none)
  | .dir n cs =>
    let r := rewriteForest ns libs subs (childPath path n) cs
    (.dir n r.1, r.2)
/-- The iteration of `rewrite_imports` over a directory's children: a
raised error propagates immediately, leaving the remaining entries
unvisited and unchanged. -/
def rewriteForest (ns : Text) (libs : List Text) (subs : List (Text → Text))
    (path : Text) : FSForest → FSForest × Option VendoringError
  | .nil => (.nil, none)
  | .cons t ts =>
    match rewriteTree ns libs subs path t with
    | (t', none) =>
      let r := rewriteForest ns libs subs path ts
      (.cons t' r.1, r.2)
    | (t', some e) => (.cons t' ts, some e)
end
/-- `rewrite_imports` on the destination directory (vendor.py lines
169-179): the recursive walk applied to its children. -/
def rewrite_imports (destPath ns : Text) (libs : List Text)
    (subs : List (Text → Text)) (destination : FSForest) :
    FSForest × Option VendoringError :=
  rewriteForest ns libs subs destPath destination

mutual
/-- Erase the contents of `.py` files, keeping names, directory structure
and all other file contents: the part of the tree the rewriter may not
touch. -/
def maskTree : FSTree → FSTree
  | .file n c => .file n (if endsPy n then [] else c)
  | .dir n cs => .dir n (maskForest cs)
/-- `maskTree` over a directory's children. -/
def maskForest : FSForest → FSForest
  | .nil => .nil
  | .cons t ts => .cons (maskTree t) (maskForest ts)
end
/-- The lines of a text, split on newline characters: `n` newlines give
`n + 1` lines, none of which contains a newline. -/
def splitLines : Text → List Text
  | [] => [[]]
  | c :: cs =>
    if c = '\n' then [] :: splitLines cs
    else
      match splitLines cs with
      | [] => [[c]]
      | l :: rest => (c :: l) :: rest

/-- Rejoin lines with newline separators; inverse of `splitLines`. -/
def joinLines : List Text → Text
  | [] => []
  | [l] => l
  | l :: ls => l ++ '\n' :: joinLines ls

/-- The effect of one `^`-anchored substitution rule on a single line:
if the pattern matches at the start of the line, the replacement followed
by the rest of the line; otherwise the line unchanged. -/
def lineRewrite (m : Text → Option (Text × Text × Bool)) (l : Text) : Text :=
  match m l with
  | some (rep, rest, _) => rep ++ rest
  | none => l

/-- Side conditions under which a namespace cannot be confused with the
library name at the head of a rewritten import statement: the namespace is
not the library itself, does not begin with the library followed by a dot,
and contains no whitespace. -/
def NsOkFor (ns lib : Text) : Prop :=
  ns ≠ lib ∧ (∀ r, ns ≠ lib ++ '.' :: r) ∧ ∀ c ∈ ns, pyIsSpace c = false

instance : DecidableEq (Except VendoringError Text) := fun a b =>
  match a, b with
  | Except.ok x, Except.ok y =>
    if h : x = y then isTrue (by rw [h]) else isFalse (by intro hx; cases hx; exact h rfl)
  | Except.error x, Except.error y =>
    if h : x = y then isTrue (by rw [h]) else isFalse (by intro hx; cases hx; exact h rfl)
  | Except.ok _, Except.error _ => isFalse (by intro hx; cases hx)
  | Except.error _, Except.ok _ => isFalse (by intro hx; cases hx)

/-- The top-level entries of a directory as a list. -/
def forestList : FSForest → List FSTree
  | .nil => []
  | .cons t ts => t :: forestList ts

/-- The library name an entry contributes to detection, if any: its own
name for a directory, its stem for a `.py` file, nothing otherwise. -/
def classifyLib : FSTree → Option Text
  | .file n _ => if endsPy n then some (dropPy n) else none
  | .dir n _ => some n

/-- The name an entry contributes to the reported unexpected files. -/
def classifyBad : FSTree → Option Text
  | .file n _ => if endsPy n then none else some n
  | .dir _ _ => none

/-- Forget everything below the top level: directory children and file
contents.  Detection depending only on the pruned forest is exactly
non-recursiveness. -/
def pruneTree : FSTree → FSTree
  | .file n _ => .file n []
  | .dir n _ => .dir n .nil

/-- `pruneTree` over a directory's children. -/
def pruneForest : FSForest → FSForest
  | .nil => .nil
  | .cons t ts => .cons (pruneTree t) (pruneForest ts)

/-- The name of a top-level entry. -/
def treeName : FSTree → Text
  | .file n _ => n
  | .dir n _ => n

/-- Whether an entry is a directory. -/
def isDirT : FSTree → Bool
  | .dir _ _ => true
  | .file _ _ => false

/-- Whether an entry is a `.py` file. -/
def isPyFileT : FSTree → Bool
  | .file n _ => endsPy n
  | .dir _ _ => false

/-- Entry-wise concatenation of directory listings. -/
def forestAppend : FSForest → FSForest → FSForest
  | .nil, ys => ys
  | .cons t ts, ys => .cons t (forestAppend ts ys)

/-- Every entry of `pre` was processed by the walk without error,
producing the corresponding entry of `pre'`. -/
def ForestOk (ns : Text) (libs : List Text) (subs : List (Text → Text))
    (path : Text) : FSForest → FSForest → Prop
  | .nil, .nil => True
  | .cons t ts, .cons t' ts' =>
    rewriteTree ns libs subs path t = (t', none) ∧ ForestOk ns libs subs path ts ts'
  | .nil, .cons _ _ => False
  | .cons _ _, .nil => False

theorem takeSpaces_eq (s : Text) : (takeSpaces s).1 ++ (takeSpaces s).2 = s := by
  induction s with
  | nil => rfl
  | cons c cs ih =>
    simp only [takeSpaces]
    cases h : pyIsSpace c
    · simp
    · simpa using ih

theorem takeSpaces_of_append (w : Text) (d : Char) (r : Text)
    (hw : ∀ c ∈ w, pyIsSpace c = true) (hd : pyIsSpace d = false) :
    takeSpaces (w ++ d :: r) = (w, d :: r) := by
  induction w with
  | nil => simp [takeSpaces, hd]
  | cons c cs ih =>
    have hc : pyIsSpace c = true := hw c (by simp)
    have ih2 := ih (fun x hx => hw x (by simp [hx]))
    rw [List.cons_append]
    simp [takeSpaces, hc, ih2]

theorem takeSpaces_of_all (w : Text) (hw : ∀ c ∈ w, pyIsSpace c = true) :
    takeSpaces w = (w, []) := by
  induction w with
  | nil => rfl
  | cons c cs ih =>
    have hc : pyIsSpace c = true := hw c (by simp)
    have ih2 := ih (fun x hx => hw x (by simp [hx]))
    simp [takeSpaces, hc, ih2]

theorem takeSpaces_extend (u v : Text) (c : Char) (r w : Text)
    (h : takeSpaces u = (w, c :: r)) :
    takeSpaces (u ++ v) = (w, c :: (r ++ v)) := by
  induction u generalizing w with
  | nil => simp [takeSpaces] at h
  | cons d ds ih =>
    simp only [takeSpaces] at h
    cases hd : pyIsSpace d
    · rw [hd] at h
      simp only [Bool.false_eq_true, if_false, Prod.mk.injEq] at h
      obtain ⟨h1, h2⟩ := h
      subst h1
      obtain ⟨rfl, rfl⟩ : d = c ∧ ds = r := by
        have := List.cons.injEq d ds c r ▸ h2
        exact ⟨this.1, this.2⟩
      rw [List.cons_append]
      simp [takeSpaces, hd]
    · rw [hd] at h
      simp only [if_true, Prod.mk.injEq] at h
      obtain ⟨h1, h2⟩ := h
      subst h1
      have hds : takeSpaces ds = ((takeSpaces ds).1, c :: r) := by
        rw [← h2]
      have ih2 := ih _ hds
      rw [List.cons_append]
      simp [takeSpaces, hd, ih2]

theorem takeSolid_eq (s : Text) : (takeSolid s).1 ++ (takeSolid s).2 = s := by
  induction s with
  | nil => rfl
  | cons c cs ih =>
    simp only [takeSolid]
    cases h : pyIsSpace c
    · simpa using ih
    · simp

theorem takeSolid_of_append (a : Text) (d : Char) (r : Text)
    (ha : ∀ c ∈ a, pyIsSpace c = false) (hd : pyIsSpace d = true) :
    takeSolid (a ++ d :: r) = (a, d :: r) := by
  induction a with
  | nil => simp [takeSolid, hd]
  | cons c cs ih =>
    have hc : pyIsSpace c = false := ha c (by simp)
    have ih2 := ih (fun x hx => ha x (by simp [hx]))
    rw [List.cons_append]
    simp [takeSolid, hc, ih2]

theorem takeSolid_of_all (a : Text) (ha : ∀ c ∈ a, pyIsSpace c = false) :
    takeSolid a = (a, []) := by
  induction a with
  | nil => rfl
  | cons c cs ih =>
    have hc : pyIsSpace c = false := ha c (by simp)
    have ih2 := ih (fun x hx => ha x (by simp [hx]))
    simp [takeSolid, hc, ih2]

theorem dropLit?_of_append (p s : Text) : dropLit? p (p ++ s) = some s := by
  induction p with
  | nil => rfl
  | cons c cs ih => simp [dropLit?, ih]

theorem dropLit?_some (p s r : Text) (h : dropLit? p s = some r) : s = p ++ r := by
  induction p generalizing s with
  | nil => cases s <;> simpa [dropLit?] using h
  | cons c cs ih =>
    cases s with
    | nil => simp [dropLit?] at h
    | cons d ds =>
      simp only [dropLit?] at h
      by_cases hc : c = d
      · subst hc
        simp only [if_true] at h
        simp [ih ds h]
      · simp [hc] at h

theorem dropLit?_split (p q s : Text) :
    dropLit? (p ++ q) s = (dropLit? p s).bind (dropLit? q) := by
  induction p generalizing s with
  | nil => simp [dropLit?]
  | cons c cs ih =>
    cases s with
    | nil => simp [dropLit?]
    | cons d ds =>
      simp only [List.cons_append, dropLit?]
      by_cases hc : c = d
      · simp [hc, ih]
      · simp [hc]

theorem dropLit?_none (p s : Text) (h : ∀ r, s ≠ p ++ r) : dropLit? p s = none := by
  cases hd : dropLit? p s with
  | none => rfl
  | some r => exact absurd (dropLit?_some _ _ _ hd) (h r)

theorem importKw_eq : importKw = 'i' :: ('m' :: ('p' :: ('o' :: ('r' :: ('t' :: [' ']))))) := rfl

theorem fromKw_eq : fromKw = 'f' :: ('r' :: ('o' :: ('m' :: [' ']))) := rfl

theorem matchPlain_consumes (ns lib s rep rest : Text) (b : Bool)
    (h : matchPlain ns lib s = some (rep, rest, b)) : rest.length < s.length := by
  have hs : (takeSpaces s).1.length + (takeSpaces s).2.length = s.length := by
    conv_rhs => rw [← takeSpaces_eq s]
    simp
  have h7 : importKw.length = 7 := rfl
  unfold matchPlain at h
  split at h
  · exact absurd h (by simp)
  · next heq =>
    have hdec := congrArg List.length (dropLit?_some _ _ _ heq)
    simp only [Option.some.injEq, Prod.mk.injEq] at h
    obtain ⟨-, h2, -⟩ := h
    subst h2
    simp only [List.length_append, List.length_nil, h7] at hdec
    simp only [List.length_nil]
    omega
  · next c r2 heq =>
    have hdec := congrArg List.length (dropLit?_some _ _ _ heq)
    split at h
    · simp only [Option.some.injEq, Prod.mk.injEq] at h
      obtain ⟨-, h2, -⟩ := h
      subst h2
      simp only [List.length_append, List.length_cons, h7] at hdec
      omega
    · exact absurd h (by simp)

theorem matchAliased_consumes (ns lib s rep rest : Text) (b : Bool)
    (h : matchAliased ns lib s = some (rep, rest, b)) : rest.length < s.length := by
  have hs : (takeSpaces s).1.length + (takeSpaces s).2.length = s.length := by
    conv_rhs => rw [← takeSpaces_eq s]
    simp
  have h7 : importKw.length = 7 := rfl
  unfold matchAliased at h
  split at h
  · exact absurd h (by simp)
  · next s3 heq =>
    have hdec := congrArg List.length (dropLit?_some _ _ _ heq)
    have hq : (takeSolid s3).1.length + (takeSolid s3).2.length = s3.length := by
      conv_rhs => rw [← takeSolid_eq s3]
      simp
    split at h
    · exact absurd h (by simp)
    · next hne =>
      have hpos : 0 < (takeSolid s3).1.length := by
        cases hx : (takeSolid s3).1 with
        | nil => rw [hx] at hne; simp at hne
        | cons a as => simp [hx]
      split at h
      · exact absurd h (by simp)
      · split at h
        · exact absurd h (by simp)
        · simp only [Option.some.injEq, Prod.mk.injEq] at h
          obtain ⟨-, h2, -⟩ := h
          subst h2
          simp only [List.length_append, List.length_cons, h7] at hdec
          omega
  · exact absurd h (by simp)

theorem matchFromImport_consumes (ns lib s rep rest : Text) (b : Bool)
    (h : matchFromImport ns lib s = some (rep, rest, b)) : rest.length < s.length := by
  have hs : (takeSpaces s).1.length + (takeSpaces s).2.length = s.length := by
    conv_rhs => rw [← takeSpaces_eq s]
    simp
  have h5 : fromKw.length = 5 := rfl
  unfold matchFromImport at h
  split at h
  · exact absurd h (by simp)
  · exact absurd h (by simp)
  · next c r2 heq =>
    have hdec := congrArg List.length (dropLit?_some _ _ _ heq)
    split at h
    · simp only [Option.some.injEq, Prod.mk.injEq] at h
      obtain ⟨-, h2, -⟩ := h
      subst h2
      simp only [List.length_append, List.length_cons, h5] at hdec
      omega
    · exact absurd h (by simp)

theorem subScan_nil (m : Text → Option (Text × Text × Bool)) (f : Nat) (b : Bool) :
    subScan m f b [] = [] := by
  cases f <;> rfl

theorem subScan_fuel_irrel (m : Text → Option (Text × Text × Bool))
    (hm : ∀ s rep rest b, m s = some (rep, rest, b) → rest.length < s.length) :
    ∀ f g b (s : Text), s.length ≤ f → s.length ≤ g →
      subScan m f b s = subScan m g b s := by
  intro f
  induction f with
  | zero =>
    intro g b s hf _
    have : s = [] := List.length_eq_zero.mp (Nat.le_zero.mp hf)
    subst this
    rw [subScan_nil, subScan_nil]
  | succ f ih =>
    intro g b s hf hg
    cases s with
    | nil => rw [subScan_nil, subScan_nil]
    | cons c cs =>
      cases g with
      | zero => simp at hg
      | succ g =>
        simp only [subScan]
        cases b
        · simp only [if_false, Bool.false_eq_true]
          rw [ih g _ cs (by simpa using hf) (by simpa using hg)]
        · simp only [if_true]
          split
          · next rep rest ls hmv =>
            have hr := hm _ _ _ _ hmv
            simp only [List.length_cons] at hr hf hg
            rw [ih g _ rest (by omega) (by omega)]
          · rw [ih g _ cs (by simpa using hf) (by simpa using hg)]

theorem subScan_noLS (m : Text → Option (Text × Text × Bool)) :
    ∀ (f : Nat) (s : Text), '\n' ∉ s → subScan m f false s = s := by
  intro f
  induction f with
  | zero => intro s _; rfl
  | succ f ih =>
    intro s h
    cases s with
    | nil => rfl
    | cons c cs =>
      have hc : (c == '\n') = false := by
        simp only [beq_eq_false_iff_ne, ne_eq]
        intro hx
        exact h (hx ▸ List.mem_cons_self c cs)
      simp only [subScan, if_false, Bool.false_eq_true, hc]
      rw [ih cs (fun hx => h (List.mem_cons_of_mem c hx))]

theorem subScan_skip (m : Text → Option (Text × Text × Bool)) (u v : Text) (f : Nat)
    (hu : '\n' ∉ u) :
    subScan m (u.length + 1 + f) false (u ++ '\n' :: v) =
      u ++ '\n' :: subScan m f true v := by
  induction u with
  | nil =>
    have h0 : 0 + 1 + f = f + 1 := by omega
    simp only [List.length_nil, List.nil_append, h0]
    simp [subScan]
  | cons c cs ih =>
    have hc : (c == '\n') = false := by
      simp only [beq_eq_false_iff_ne, ne_eq]
      intro hx
      exact hu (hx ▸ List.mem_cons_self c cs)
    have hlen : (c :: cs).length + 1 + f = (cs.length + 1 + f) + 1 := by
      simp
      omega
    rw [hlen]
    simp only [List.cons_append, subScan, if_false, Bool.false_eq_true, hc, List.append_eq]
    rw [ih (fun hx => hu (List.mem_cons_of_mem c hx))]

theorem reSub_single_none (m : Text → Option (Text × Text × Bool)) (s : Text)
    (hnl : '\n' ∉ s) (hm : m s = none) : reSubAnchored m s = s := by
  cases s with
  | nil => rfl
  | cons c cs =>
    have hc : (c == '\n') = false := by
      simp only [beq_eq_false_iff_ne, ne_eq]
      intro hx
      exact hnl (hx ▸ List.mem_cons_self c cs)
    simp only [reSubAnchored, List.length_cons, subScan, if_true, hm, hc]
    rw [subScan_noLS m cs.length cs (fun hx => hnl (List.mem_cons_of_mem c hx))]

theorem reSub_single_some (m : Text → Option (Text × Text × Bool)) (c : Char)
    (cs rep rest : Text) (hm : m (c :: cs) = some (rep, rest, false))
    (hrest : '\n' ∉ rest) : reSubAnchored m (c :: cs) = rep ++ rest := by
  simp only [reSubAnchored, List.length_cons, subScan, if_true, hm]
  rw [subScan_noLS m cs.length rest hrest]

theorem takeSpaces_head (s : Text) (c : Char) (r : Text)
    (h : (takeSpaces s).2 = c :: r) : pyIsSpace c = false := by
  induction s with
  | nil => simp [takeSpaces] at h
  | cons d ds ih =>
    simp only [takeSpaces] at h
    cases hd : pyIsSpace d
    · rw [hd] at h
      simp only [Bool.false_eq_true, if_false] at h
      have h2 := List.cons.injEq d ds c r ▸ h
      exact h2.1 ▸ hd
    · rw [hd] at h
      simp only [if_true] at h
      exact ih h

theorem takeSolid_head (s : Text) (c : Char) (r : Text)
    (h : (takeSolid s).2 = c :: r) : pyIsSpace c = true := by
  induction s with
  | nil => simp [takeSolid] at h
  | cons d ds ih =>
    simp only [takeSolid] at h
    cases hd : pyIsSpace d
    · rw [hd] at h
      simp only [Bool.false_eq_true, if_false] at h
      exact ih h
    · rw [hd] at h
      simp only [if_true] at h
      have h2 := List.cons.injEq d ds c r ▸ h
      exact h2.1 ▸ hd

theorem takeSolid_solid (s : Text) : ∀ c ∈ (takeSolid s).1, pyIsSpace c = false := by
  induction s with
  | nil => simp [takeSolid]
  | cons d ds ih =>
    simp only [takeSolid]
    cases hd : pyIsSpace d
    · simp only [Bool.false_eq_true, if_false]
      intro c hc
      rcases List.mem_cons.mp hc with rfl | hc
      · exact hd
      · exact ih c hc
    · simp

theorem takeSolid_extend (u v : Text) (c : Char) (r a : Text)
    (h : takeSolid u = (a, c :: r)) :
    takeSolid (u ++ v) = (a, c :: (r ++ v)) := by
  induction u generalizing a with
  | nil => simp [takeSolid] at h
  | cons d ds ih =>
    simp only [takeSolid] at h
    cases hd : pyIsSpace d
    · rw [hd] at h
      simp only [Bool.false_eq_true, if_false, Prod.mk.injEq] at h
      obtain ⟨h1, h2⟩ := h
      subst h1
      have hds : takeSolid ds = ((takeSolid ds).1, c :: r) := by
        rw [← h2]
      have ih2 := ih _ hds
      rw [List.cons_append]
      simp [takeSolid, hd, ih2]
    · rw [hd] at h
      simp only [if_true, Prod.mk.injEq] at h
      obtain ⟨h1, h2⟩ := h
      subst h1
      obtain ⟨rfl, rfl⟩ : d = c ∧ ds = r := by
        have := List.cons.injEq d ds c r ▸ h2
        exact ⟨this.1, this.2⟩
      rw [List.cons_append]
      simp [takeSolid, hd]

theorem takeSpaces_importKw (w t : Text) (hw : ∀ c ∈ w, pyIsSpace c = true) :
    takeSpaces (w ++ (importKw ++ t)) = (w, importKw ++ t) := by
  have h : importKw ++ t = 'i' :: (("mport ").toList ++ t) := rfl
  rw [h]
  exact takeSpaces_of_append w 'i' _ hw (by decide)

theorem takeSpaces_fromKw (w t : Text) (hw : ∀ c ∈ w, pyIsSpace c = true) :
    takeSpaces (w ++ (fromKw ++ t)) = (w, fromKw ++ t) := by
  have h : fromKw ++ t = 'f' :: (("rom ").toList ++ t) := rfl
  rw [h]
  exact takeSpaces_of_append w 'f' _ hw (by decide)

theorem dropLit?_head_ne (a b : Char) (p s : Text) (h : a ≠ b) :
    dropLit? (a :: p) (b :: s) = none := by
  simp [dropLit?, h]

theorem matchPlain_eos (ns lib w : Text) (hw : ∀ c ∈ w, pyIsSpace c = true) :
    matchPlain ns lib (w ++ (importKw ++ lib)) =
      some (w ++ fromKw ++ ns ++ (" import ").toList ++ lib, [], false) := by
  have ht := takeSpaces_importKw w lib hw
  have hD : dropLit? (importKw ++ lib) (importKw ++ lib) = some [] := by
    simpa using dropLit?_of_append (importKw ++ lib) []
  simp [matchPlain, ht, hD]

theorem matchPlain_space (ns lib w t' : Text) (c : Char)
    (hw : ∀ x ∈ w, pyIsSpace x = true) (hc : pyIsSpace c = true) :
    matchPlain ns lib (w ++ (importKw ++ (lib ++ c :: t'))) =
      some (w ++ fromKw ++ ns ++ (" import ").toList ++ lib ++ [c], t', c == '\n') := by
  have ht := takeSpaces_importKw w (lib ++ c :: t') hw
  have hD : dropLit? (importKw ++ lib) (importKw ++ (lib ++ c :: t')) = some (c :: t') := by
    have he : importKw ++ (lib ++ c :: t') = (importKw ++ lib) ++ (c :: t') := by
      simp [List.append_assoc]
    rw [he, dropLit?_of_append]
  simp [matchPlain, ht, hD, hc]

theorem matchPlain_solid (ns lib w t' : Text) (c : Char)
    (hw : ∀ x ∈ w, pyIsSpace x = true) (hc : pyIsSpace c = false) :
    matchPlain ns lib (w ++ (importKw ++ (lib ++ c :: t'))) = none := by
  have ht := takeSpaces_importKw w (lib ++ c :: t') hw
  have hD : dropLit? (importKw ++ lib) (importKw ++ (lib ++ c :: t')) = some (c :: t') := by
    have he : importKw ++ (lib ++ c :: t') = (importKw ++ lib) ++ (c :: t') := by
      simp [List.append_assoc]
    rw [he, dropLit?_of_append]
  simp [matchPlain, ht, hD, hc]

theorem matchPlain_noImport (ns lib w t : Text) (hw : ∀ x ∈ w, pyIsSpace x = true) :
    matchPlain ns lib (w ++ (fromKw ++ t)) = none := by
  have ht := takeSpaces_fromKw w t hw
  have hD : dropLit? (importKw ++ lib) (fromKw ++ t) = none := by
    rw [importKw_eq, fromKw_eq]
    exact dropLit?_head_ne 'i' 'f' _ _ (by decide)
  simp [matchPlain, ht, hD]

theorem matchAliased_noImport (ns lib w t : Text) (hw : ∀ x ∈ w, pyIsSpace x = true) :
    matchAliased ns lib (w ++ (fromKw ++ t)) = none := by
  have ht := takeSpaces_fromKw w t hw
  have hD : dropLit? (importKw ++ lib) (fromKw ++ t) = none := by
    rw [importKw_eq, fromKw_eq]
    exact dropLit?_head_ne 'i' 'f' _ _ (by decide)
  simp [matchAliased, ht, hD]

theorem matchFromImport_noFrom (ns lib w t : Text) (hw : ∀ x ∈ w, pyIsSpace x = true) :
    matchFromImport ns lib (w ++ (importKw ++ t)) = none := by
  have ht := takeSpaces_importKw w t hw
  have hD : dropLit? (fromKw ++ lib) (importKw ++ t) = none := by
    rw [importKw_eq, fromKw_eq]
    exact dropLit?_head_ne 'f' 'i' _ _ (by decide)
  simp [matchFromImport, ht, hD]

theorem matchDotted_noImport (lib w t : Text) (hw : ∀ x ∈ w, pyIsSpace x = true) :
    matchDotted lib (w ++ (fromKw ++ t)) = none := by
  have ht := takeSpaces_fromKw w t hw
  have hD : dropLit? (importKw ++ (lib ++ ['.'])) (fromKw ++ t) = none := by
    rw [importKw_eq, fromKw_eq]
    exact dropLit?_head_ne 'i' 'f' _ _ (by decide)
  simp [matchDotted, ht, hD]

theorem matchAliased_hit (ns lib w sub rest2 : Text)
    (hw : ∀ x ∈ w, pyIsSpace x = true) (hsub : ∀ x ∈ sub, pyIsSpace x = false)
    (hne : sub ≠ []) :
    matchAliased ns lib
        (w ++ (importKw ++ (lib ++ '.' :: (sub ++ ' ' :: 'a' :: 's' :: rest2)))) =
      some (w ++ importKw ++ ns ++ ['.'] ++ lib ++ ['.'] ++ sub,
        ' ' :: 'a' :: 's' :: rest2, false) := by
  have ht := takeSpaces_importKw w (lib ++ '.' :: (sub ++ ' ' :: 'a' :: 's' :: rest2)) hw
  have hD : dropLit? (importKw ++ lib)
      (importKw ++ (lib ++ '.' :: (sub ++ ' ' :: 'a' :: 's' :: rest2))) =
      some ('.' :: (sub ++ ' ' :: 'a' :: 's' :: rest2)) := by
    have he : importKw ++ (lib ++ '.' :: (sub ++ ' ' :: 'a' :: 's' :: rest2)) =
        (importKw ++ lib) ++ ('.' :: (sub ++ ' ' :: 'a' :: 's' :: rest2)) := by
      simp [List.append_assoc]
    rw [he, dropLit?_of_append]
  have hq : takeSolid (sub ++ ' ' :: 'a' :: 's' :: rest2) =
      (sub, ' ' :: 'a' :: 's' :: rest2) :=
    takeSolid_of_append sub ' ' _ hsub (by decide)
  have hr : takeSpaces (' ' :: 'a' :: 's' :: rest2) = ([' '], 'a' :: 's' :: rest2) := by
    have := takeSpaces_of_append [' '] 'a' ('s' :: rest2) (by simp; decide) (by decide)
    simpa using this
  simp [matchAliased, ht, hD, hq, hr, hne, dropLit?]

theorem matchFromImport_hit (ns lib w t' : Text) (c : Char)
    (hw : ∀ x ∈ w, pyIsSpace x = true) (hc : (c = '.' || pyIsSpace c) = true) :
    matchFromImport ns lib (w ++ (fromKw ++ (lib ++ c :: t'))) =
      some (w ++ fromKw ++ ns ++ ['.'] ++ lib ++ [c], t', c == '\n') := by
  have ht := takeSpaces_fromKw w (lib ++ c :: t') hw
  have hD : dropLit? (fromKw ++ lib) (fromKw ++ (lib ++ c :: t')) = some (c :: t') := by
    have he : fromKw ++ (lib ++ c :: t') = (fromKw ++ lib) ++ (c :: t') := by
      simp [List.append_assoc]
    rw [he, dropLit?_of_append]
  simp [matchFromImport, ht, hD, hc]

theorem matchFromImport_rel (ns lib w t : Text)
    (hw : ∀ x ∈ w, pyIsSpace x = true) (hlib : isIdentText lib = true) :
    matchFromImport ns lib (w ++ (fromKw ++ ('.' :: t))) = none := by
  have ht := takeSpaces_fromKw w ('.' :: t) hw
  obtain ⟨l0, lib', rfl⟩ : ∃ l0 lib', lib = l0 :: lib' := by
    cases lib with
    | nil => simp [isIdentText] at hlib
    | cons a as => exact ⟨a, as, rfl⟩
  have hl0 : pyIsIdentChar l0 = true := by
    simp only [isIdentText, Bool.and_eq_true, List.all_eq_true] at hlib
    exact hlib.2 l0 (by simp)
  have hne : l0 ≠ '.' := by
    intro hx
    rw [hx] at hl0
    exact absurd hl0 (by decide)
  have hD : dropLit? (fromKw ++ (l0 :: lib')) (fromKw ++ ('.' :: t)) = none := by
    rw [dropLit?_split, dropLit?_of_append]
    simpa using dropLit?_head_ne l0 '.' lib' t hne
  simp [matchFromImport, ht, hD]

theorem isIdentText_mem (lib : Text) (hlib : isIdentText lib = true) :
    ∀ c ∈ lib, pyIsIdentChar c = true := by
  intro c hc
  simp only [isIdentText, Bool.and_eq_true, List.all_eq_true] at hlib
  exact hlib.2 c hc

theorem dropLit?_libdot_none (lib ns R : Text) (hlib : isIdentText lib = true)
    (hok : NsOkFor ns lib) :
    dropLit? (lib ++ ['.']) (ns ++ '.' :: R) = none := by
  apply dropLit?_none
  intro r hr
  have hr2 : ns ++ '.' :: R = lib ++ '.' :: r := by
    simpa [List.append_assoc] using hr
  rcases List.append_eq_append_iff.mp hr2 with ⟨a', ha1, ha2⟩ | ⟨c', hc1, hc2⟩
  · cases a' with
    | nil =>
      exact hok.1 (by simpa using ha1.symm)
    | cons x a2 =>
      have hx : '.' = x := by
        simp only [List.cons_append] at ha2
        exact (List.cons.inj ha2).1
      have hmem : x ∈ lib := by
        rw [ha1]
        simp
      have hid := isIdentText_mem lib hlib x hmem
      rw [← hx] at hid
      exact absurd hid (by decide)
  · cases c' with
    | nil =>
      exact hok.1 (by simpa using hc1)
    | cons y c2 =>
      have hy : '.' = y := by
        simp only [List.cons_append] at hc2
        exact (List.cons.inj hc2).1
      rw [← hy] at hc1
      exact hok.2.1 c2 hc1

theorem matchDotted_ns (ns lib w R : Text) (hw : ∀ x ∈ w, pyIsSpace x = true)
    (hlib : isIdentText lib = true) (hok : NsOkFor ns lib) :
    matchDotted lib (w ++ (importKw ++ (ns ++ '.' :: R))) = none := by
  have ht := takeSpaces_importKw w (ns ++ '.' :: R) hw
  have hD : dropLit? (importKw ++ (lib ++ ['.'])) (importKw ++ (ns ++ '.' :: R)) = none := by
    rw [dropLit?_split, dropLit?_of_append]
    simpa using dropLit?_libdot_none lib ns R hlib hok
  simp [matchDotted, ht, hD]

theorem matchFromImport_ns (ns2 ns lib w R : Text)
    (hw : ∀ x ∈ w, pyIsSpace x = true) (hlib : isIdentText lib = true)
    (hok : NsOkFor ns lib) :
    matchFromImport ns2 lib (w ++ (fromKw ++ (ns ++ ' ' :: R))) = none := by
  have ht := takeSpaces_fromKw w (ns ++ ' ' :: R) hw
  have hsplit : dropLit? (fromKw ++ lib) (fromKw ++ (ns ++ ' ' :: R)) =
      dropLit? lib (ns ++ ' ' :: R) := by
    rw [dropLit?_split, dropLit?_of_append]
    rfl
  cases hD : dropLit? lib (ns ++ ' ' :: R) with
  | none => simp [matchFromImport, ht, hsplit, hD]
  | some u =>
    cases u with
    | nil => simp [matchFromImport, ht, hsplit, hD]
    | cons c u2 =>
      have heq : ns ++ ' ' :: R = lib ++ c :: u2 := dropLit?_some _ _ _ hD
      have hcond : (c = '.' || pyIsSpace c) = false := by
        rcases List.append_eq_append_iff.mp heq with ⟨a', ha1, ha2⟩ | ⟨c', hc1, hc2⟩
        · cases a' with
          | nil =>
            exact absurd (by simpa using ha1.symm) hok.1
          | cons x a2 =>
            exfalso
            have hx : ' ' = x := by
              simp only [List.cons_append] at ha2
              exact (List.cons.inj ha2).1
            have hmem : x ∈ lib := by
              rw [ha1]
              simp
            have hid := isIdentText_mem lib hlib x hmem
            rw [← hx] at hid
            exact absurd hid (by decide)
        · cases c' with
          | nil =>
            exact absurd (by simpa using hc1) hok.1
          | cons y c2 =>
            have hy : c = y := by
              simp only [List.cons_append] at hc2
              exact (List.cons.inj hc2).1
            have hcmem : c ∈ ns := by
              rw [hc1, hy]
              simp
            have hsp := hok.2.2 c hcmem
            have hdot : (c = '.') = False := by
              simp only [eq_iff_iff, iff_false]
              intro hcc
              apply hok.2.1 c2
              rw [hc1, ← hy, hcc]
            simp [hdot, hsp]
      simp [matchFromImport, ht, hsplit, hD, hcond]

theorem searchScan_noLS (lib : Text) :
    ∀ (pos : Nat) (s : Text), '\n' ∉ s → searchScan lib false pos s = none := by
  intro pos s
  induction s generalizing pos with
  | nil => intro h; rfl
  | cons c cs ih =>
    intro h
    have hc : (c == '\n') = false := by
      simp only [beq_eq_false_iff_ne, ne_eq]
      intro hx
      exact h (hx ▸ List.mem_cons_self c cs)
    simp only [searchScan, if_false, Bool.false_eq_true, hc]
    exact ih (pos + 1) (fun hx => h (List.mem_cons_of_mem c hx))

theorem searchDotted_single (lib s : Text) (hnl : '\n' ∉ s)
    (hmd : matchDotted lib s = none) : searchDotted lib s = none := by
  cases s with
  | nil => rfl
  | cons c cs =>
    have hc : (c == '\n') = false := by
      simp only [beq_eq_false_iff_ne, ne_eq]
      intro hx
      exact hnl (hx ▸ List.mem_cons_self c cs)
    simp only [searchDotted, searchScan, if_true, hmd, hc]
    exact searchScan_noLS lib 1 cs (fun hx => hnl (List.mem_cons_of_mem c hx))

theorem splitLines_ne_nil (t : Text) : splitLines t ≠ [] := by
  induction t with
  | nil => simp [splitLines]
  | cons c cs ih =>
    simp only [splitLines]
    by_cases hc : c = '\n'
    · simp [hc]
    · simp only [hc, if_false]
      cases h : splitLines cs with
      | nil => simp
      | cons l rest => simp

theorem splitLines_no_nl (t : Text) (h : '\n' ∉ t) : splitLines t = [t] := by
  induction t with
  | nil => rfl
  | cons c cs ih =>
    have hc : ¬(c = '\n') := fun hx => h (hx ▸ List.mem_cons_self c cs)
    have ih2 := ih (fun hx => h (List.mem_cons_of_mem c hx))
    simp only [splitLines, hc, if_false, ih2]

theorem splitLines_append_nl (l v : Text) (hl : '\n' ∉ l) :
    splitLines (l ++ '\n' :: v) = l :: splitLines v := by
  induction l with
  | nil => simp [splitLines]
  | cons c cs ih =>
    have hc : ¬(c = '\n') := fun hx => hl (hx ▸ List.mem_cons_self c cs)
    have ih2 := ih (fun hx => hl (List.mem_cons_of_mem c hx))
    rw [List.cons_append]
    simp only [splitLines, hc, if_false, ih2]

theorem splitLines_decomp (t : Text) :
    ('\n' ∉ t ∧ splitLines t = [t]) ∨
      ∃ l v, t = l ++ '\n' :: v ∧ '\n' ∉ l ∧ splitLines t = l :: splitLines v := by
  by_cases h : '\n' ∈ t
  · right
    obtain ⟨l, v, rfl, hl⟩ : ∃ l v, t = l ++ '\n' :: v ∧ '\n' ∉ l := by
      obtain ⟨l, v, rfl⟩ := List.append_of_mem h
      clear h
      induction l with
      | nil => exact ⟨[], v, rfl, by simp⟩
      | cons c cs ih =>
        by_cases hc : c = '\n'
        · exact ⟨[], cs ++ '\n' :: v, by simp [hc], by simp⟩
        · obtain ⟨l2, v2, he, hnl⟩ := ih
          refine ⟨c :: l2, v2, ?_, ?_⟩
          · simp [he]
          · intro hx
            rcases List.mem_cons.mp hx with hx | hx
            · exact hc hx.symm
            · exact hnl hx
    exact ⟨l, v, rfl, hl, splitLines_append_nl l v hl⟩
  · left
    exact ⟨h, splitLines_no_nl t h⟩

theorem matchDotted_nil (lib : Text) : matchDotted lib [] = none := by
  have hD : dropLit? (importKw ++ (lib ++ ['.'])) [] = none := by
    rw [importKw_eq]
    rfl
  simp [matchDotted, takeSpaces, hD]

theorem matchDotted_extend (lib l v g : Text)
    (h : matchDotted lib l = some g) : matchDotted lib (l ++ '\n' :: v) = some g := by
  unfold matchDotted at h
  split at h
  · exact absurd h (by simp)
  · next s2 heq =>
    split at h
    · exact absurd h (by simp)
    · next hq =>
      have hg : some (importKw ++ lib ++ ['.'] ++ (takeSolid s2).1) = some g := h
      obtain ⟨c0, r0, hc0⟩ : ∃ c0 r0, (takeSpaces l).2 = c0 :: r0 := by
        cases hx : (takeSpaces l).2 with
        | nil =>
          rw [hx] at heq
          rw [importKw_eq] at heq
          exact absurd heq (by rw [show (('i' :: ('m' :: ('p' :: ('o' :: ('r' :: ('t' :: [' '])))))) ++ lib ++ ['.']) = 'i' :: (('m' :: ('p' :: ('o' :: ('r' :: ('t' :: [' ']))))) ++ lib ++ ['.']) from by simp [List.cons_append]]; simp [dropLit?])
        | cons a b => exact ⟨a, b, rfl⟩
      have hext := takeSpaces_extend l ('\n' :: v) c0 r0 (takeSpaces l).1 (by rw [← hc0])
      have hdec : c0 :: r0 = (importKw ++ lib ++ ['.']) ++ s2 := by
        rw [← hc0]
        exact dropLit?_some _ _ _ heq
      have hD2 : dropLit? (importKw ++ lib ++ ['.']) (c0 :: (r0 ++ '\n' :: v)) =
          some (s2 ++ '\n' :: v) := by
        have he : c0 :: (r0 ++ '\n' :: v) = (importKw ++ lib ++ ['.']) ++ (s2 ++ '\n' :: v) := by
          rw [← List.cons_append, hdec]
          simp [List.append_assoc]
        rw [he, dropLit?_of_append]
      have hsolid : (takeSolid (s2 ++ '\n' :: v)).1 = (takeSolid s2).1 := by
        cases hx : (takeSolid s2).2 with
        | nil =>
          have hall := takeSolid_solid s2
          have hs2 : (takeSolid s2).1 = s2 := by
            have he := takeSolid_eq s2
            rw [hx] at he
            simpa using he
          rw [hs2]
          rw [takeSolid_of_append s2 '\n' v (fun c hc => hall c (by rw [hs2]; exact hc)) (by decide)]
        | cons d r2 =>
          have he := takeSolid_extend s2 ('\n' :: v) d r2 (takeSolid s2).1 (by rw [← hx])
          rw [he]
      unfold matchDotted
      rw [hext]
      simp only [hD2, hsolid]
      split
      · next hq2 => exact absurd hq2 (by simpa using hq)
      · exact hg

theorem searchScan_skip (lib : Text) (u : Text) (v : Text) (pos : Nat) (hu : '\n' ∉ u) :
    searchScan lib false pos (u ++ '\n' :: v) =
      searchScan lib true (pos + u.length + 1) v := by
  induction u generalizing pos with
  | nil =>
    simp only [List.nil_append, List.length_nil]
    show searchScan lib false pos ('\n' :: v) = searchScan lib true (pos + 0 + 1) v
    simp [searchScan]
  | cons c cs ih =>
    have hc : (c == '\n') = false := by
      simp only [beq_eq_false_iff_ne, ne_eq]
      intro hx
      exact hu (hx ▸ List.mem_cons_self c cs)
    rw [List.cons_append]
    simp only [searchScan, if_false, Bool.false_eq_true, hc]
    rw [ih (pos + 1) (fun hx => hu (List.mem_cons_of_mem c hx))]
    congr 1
    simp
    omega

theorem searchScan_none_lines (lib : Text) :
    ∀ (t : Text) (b : Bool) (pos : Nat), searchScan lib b pos t = none →
      ∀ l ∈ (if b then splitLines t else (splitLines t).tail),
        matchDotted lib l = none := by
  intro t
  induction t with
  | nil =>
    intro b pos h l hl
    cases b
    · simp [splitLines] at hl
    · simp only [if_true, splitLines, List.mem_singleton] at hl
      subst hl
      exact matchDotted_nil lib
  | cons c cs ih =>
    intro b pos h l hl
    cases b
    · simp only [searchScan, if_false, Bool.false_eq_true] at h
      simp only [Bool.false_eq_true, if_false] at hl
      by_cases hc : c = '\n'
      · subst hc
        have hcb : ('\n' == '\n') = true := rfl
        rw [hcb] at h
        have hall := ih true (pos + 1) h
        simp only [if_true] at hall
        have hsp : splitLines ('\n' :: cs) = [] :: splitLines cs := by
          simp [splitLines]
        rw [hsp] at hl
        exact hall l (by simpa using hl)
      · have hcb : (c == '\n') = false := by simp [hc]
        rw [hcb] at h
        have hall := ih false (pos + 1) h
        simp only [Bool.false_eq_true, if_false] at hall
        have hsp : (splitLines (c :: cs)).tail = (splitLines cs).tail := by
          simp only [splitLines, hc, if_false]
          cases hx : splitLines cs with
          | nil => exact absurd hx (splitLines_ne_nil cs)
          | cons a as => simp
        rw [hsp] at hl
        exact hall l hl
    · simp only [searchScan, if_true] at h
      simp only [if_true] at hl
      cases hmd : matchDotted lib (c :: cs) with
      | some g => rw [hmd] at h; simp at h
      | none =>
        rw [hmd] at h
        rcases splitLines_decomp (c :: cs) with ⟨hn, hs⟩ | ⟨l0, v, he, hnl, hs⟩
        · rw [hs] at hl
          simp only [List.mem_singleton] at hl
          subst hl
          exact hmd
        · rw [hs] at hl
          rcases List.mem_cons.mp hl with rfl | hl2
          · cases hx : matchDotted lib l with
            | none => rfl
            | some g =>
              exfalso
              have hext := matchDotted_extend lib l v g hx
              rw [← he] at hext
              exact absurd (hext.symm.trans hmd) (by simp)
          · cases l0 with
            | nil =>
              simp only [List.nil_append] at he
              obtain ⟨rfl, rfl⟩ : c = '\n' ∧ cs = v := ⟨(List.cons.inj he).1, (List.cons.inj he).2⟩
              have hcb : ('\n' == '\n') = true := rfl
              rw [hcb] at h
              have hall := ih true (pos + 1) h
              simp only [if_true] at hall
              exact hall l hl2
            | cons c0 l1 =>
              rw [List.cons_append] at he
              obtain ⟨rfl, rfl⟩ : c = c0 ∧ cs = l1 ++ '\n' :: v :=
                ⟨(List.cons.inj he).1, (List.cons.inj he).2⟩
              have hc0 : (c == '\n') = false := by
                simp only [beq_eq_false_iff_ne, ne_eq]
                intro hx
                exact hnl (hx ▸ List.mem_cons_self c l1)
              rw [hc0] at h
              have hall := ih false (pos + 1) h
              simp only [Bool.false_eq_true, if_false] at hall
              have hsp := splitLines_append_nl l1 v (fun hx => hnl (List.mem_cons_of_mem c hx))
              rw [hsp] at hall
              exact hall l (by simpa using hl2)

theorem containsSub_of (big a s b : Text) (h : big = a ++ (s ++ b)) : ContainsSub big s :=
  ⟨a, b, by rw [h, List.append_assoc]⟩

theorem vendoringError_message_parts (e : VendoringError) :
    ContainsSub e.message e.file ∧ ContainsSub e.message (natText e.lineNumber) ∧
      ContainsSub e.message e.offending := by
  refine ⟨⟨("Encountered import that cannot be transformed for a namespace.\nFile \x22").toList,
      ("\x22, line ").toList ++ natText e.lineNumber ++ ("\n  ").toList ++ e.offending
        ++ ("\n\nYou will need to add a patch, that adapts the code to avoid a `import dotted.name` style import here; since those cannot be transformed for importing via a namespace.").toList, ?_⟩,
    ⟨("Encountered import that cannot be transformed for a namespace.\nFile \x22").toList
        ++ e.file ++ ("\x22, line ").toList,
      ("\n  ").toList ++ e.offending
        ++ ("\n\nYou will need to add a patch, that adapts the code to avoid a `import dotted.name` style import here; since those cannot be transformed for importing via a namespace.").toList, ?_⟩,
    ⟨("Encountered import that cannot be transformed for a namespace.\nFile \x22").toList
        ++ e.file ++ ("\x22, line ").toList ++ natText e.lineNumber ++ ("\n  ").toList,
      ("\n\nYou will need to add a patch, that adapts the code to avoid a `import dotted.name` style import here; since those cannot be transformed for importing via a namespace.").toList, ?_⟩⟩
    <;> simp [VendoringError.message, List.append_assoc]

theorem not_mem_append2 {c : Char} {a b : Text} (ha : c ∉ a) (hb : c ∉ b) : c ∉ a ++ b := by
  intro hx
  rcases List.mem_append.mp hx with h | h
  · exact ha h
  · exact hb h

theorem not_mem_cons2 {c d : Char} {t : Text} (hd : c ≠ d) (ht : c ∉ t) : c ∉ d :: t := by
  intro hx
  rcases List.mem_cons.mp hx with h | h
  · exact hd h
  · exact ht h

theorem ident_no_nl (t : Text) (h : isIdentText t = true) : '\n' ∉ t := by
  intro hx
  exact absurd (isIdentText_mem t h '\n' hx) (by decide)

theorem solid_no_nl (t : Text) (h : ∀ x ∈ t, pyIsSpace x = false) : '\n' ∉ t := by
  intro hx
  exact absurd (h '\n' hx) (by decide)

theorem ident_nonspace (c : Char) (h : pyIsIdentChar c = true) : pyIsSpace c = false := by
  cases hsp : pyIsSpace c
  · rfl
  · exfalso
    simp only [pyIsSpace, Bool.or_eq_true, beq_iff_eq] at hsp
    rcases hsp with ((((h1 | h1) | h1) | h1) | h1) | h1 <;> rw [h1] at h <;> revert h <;> decide

theorem ident_ne_dot (c : Char) (h : pyIsIdentChar c = true) : c ≠ '.' := by
  intro hx
  rw [hx] at h
  exact absurd h (by decide)

theorem reSub_single_some' (m : Text → Option (Text × Text × Bool)) (s rep rest : Text)
    (hs : s ≠ []) (hm : m s = some (rep, rest, false)) (hrest : '\n' ∉ rest) :
    reSubAnchored m s = rep ++ rest := by
  cases s with
  | nil => exact absurd rfl hs
  | cons c cs => exact reSub_single_some m c cs rep rest hm hrest

theorem matchAliased_nondot (ns lib w t' : Text) (c : Char)
    (hw : ∀ x ∈ w, pyIsSpace x = true) (hc : c ≠ '.') :
    matchAliased ns lib (w ++ (importKw ++ (lib ++ c :: t'))) = none := by
  have ht := takeSpaces_importKw w (lib ++ c :: t') hw
  have hD : dropLit? (importKw ++ lib) (importKw ++ (lib ++ c :: t')) = some (c :: t') := by
    have he : importKw ++ (lib ++ c :: t') = (importKw ++ lib) ++ (c :: t') := by
      simp [List.append_assoc]
    rw [he, dropLit?_of_append]
  unfold matchAliased
  rw [ht]
  simp only [hD]
  split
  · rfl
  · next s3 heq =>
    exfalso
    exact hc (List.cons.inj (Option.some.inj heq)).1
  · rfl

theorem matchDotted_nondot (lib w t' : Text) (c : Char)
    (hw : ∀ x ∈ w, pyIsSpace x = true) (hc : c ≠ '.') :
    matchDotted lib (w ++ (importKw ++ (lib ++ c :: t'))) = none := by
  have ht := takeSpaces_importKw w (lib ++ c :: t') hw
  have hD : dropLit? (importKw ++ (lib ++ ['.'])) (importKw ++ (lib ++ c :: t')) = none := by
    rw [dropLit?_split, dropLit?_of_append]
    show dropLit? (lib ++ ['.']) (lib ++ c :: t') = none
    rw [dropLit?_split, dropLit?_of_append]
    show dropLit? ['.'] (c :: t') = none
    exact dropLit?_head_ne '.' c [] t' (fun hx => hc hx.symm)
  simp [matchDotted, ht, hD]

theorem ne_nil_import (w t : Text) : w ++ (importKw ++ t) ≠ [] := by
  intro hx
  rcases List.append_eq_nil.mp hx with ⟨-, h⟩
  rcases List.append_eq_nil.mp h with ⟨h2, -⟩
  rw [importKw_eq] at h2
  exact List.cons_ne_nil _ _ h2

theorem ne_nil_from (w t : Text) : w ++ (fromKw ++ t) ≠ [] := by
  intro hx
  rcases List.append_eq_nil.mp hx with ⟨-, h⟩
  rcases List.append_eq_nil.mp h with ⟨h2, -⟩
  rw [fromKw_eq] at h2
  exact List.cons_ne_nil _ _ h2

theorem detect_eq : ∀ cs : FSForest,
    detect_vendored_libs cs =
      ((forestList cs).filterMap classifyLib, (forestList cs).filterMap classifyBad)
  | .nil => rfl
  | .cons t ts => by
    have ih := detect_eq ts
    cases t with
    | file n c =>
      cases h : endsPy n
      · simp [detect_vendored_libs, forestList, classifyLib, classifyBad, h, ih]
      · simp [detect_vendored_libs, forestList, classifyLib, classifyBad, h, ih]
    | dir n cc =>
      simp [detect_vendored_libs, forestList, classifyLib, classifyBad, ih]

theorem detect_prune : ∀ cs : FSForest,
    detect_vendored_libs (pruneForest cs) = detect_vendored_libs cs
  | .nil => rfl
  | .cons t ts => by
    have ih := detect_prune ts
    cases t with
    | file n c =>
      cases h : endsPy n
      · simp [pruneForest, pruneTree, detect_vendored_libs, h, ih]
      · simp [pruneForest, pruneTree, detect_vendored_libs, h, ih]
    | dir n cc =>
      simp [pruneForest, pruneTree, detect_vendored_libs, ih]

theorem endsPy_decomp (n : Text) (h : endsPy n = true) :
    n = dropPy n ++ ('.' :: ('p' :: ['y'])) := by
  have hs : ('.' :: ('p' :: ['y'])) <:+ n := by
    have := List.isSuffixOf_iff_suffix.mp h
    exact this
  obtain ⟨p, hp⟩ := hs
  have hd : dropPy n = p := by
    rw [dropPy, ← hp]
    have hl : (p ++ ('.' :: ('p' :: ['y']))).length - 3 = p.length := by
      simp
    rw [hl]
    exact List.take_left p _
  rw [hd, hp]

theorem dropPy_inj (n1 n2 : Text) (h1 : endsPy n1 = true) (h2 : endsPy n2 = true)
    (h : dropPy n1 = dropPy n2) : n1 = n2 := by
  rw [endsPy_decomp n1 h1, endsPy_decomp n2 h2, h]

theorem classify_nodup : ∀ (l : List FSTree),
    (l.map treeName).Nodup →
    (∀ t1 ∈ l, ∀ t2 ∈ l, isDirT t1 = true → isPyFileT t2 = true →
      treeName t1 ≠ dropPy (treeName t2)) →
    (l.filterMap classifyLib).Nodup := by
  intro l
  induction l with
  | nil => intro _ _; simp
  | cons t ts ih =>
    intro hn hc
    have hn1 : treeName t ∉ ts.map treeName := (List.nodup_cons.mp hn).1
    have hn2 : (ts.map treeName).Nodup := (List.nodup_cons.mp hn).2
    have hc2 : ∀ t1 ∈ ts, ∀ t2 ∈ ts, isDirT t1 = true → isPyFileT t2 = true →
        treeName t1 ≠ dropPy (treeName t2) :=
      fun t1 h1 t2 h2 => hc t1 (List.mem_cons_of_mem t h1) t2 (List.mem_cons_of_mem t h2)
    have ihr := ih hn2 hc2
    cases hcl : classifyLib t with
    | none => simpa [List.filterMap_cons, hcl] using ihr
    | some nm =>
      rw [List.filterMap_cons, hcl]
      refine List.nodup_cons.mpr ⟨?_, ihr⟩
      intro hmem
      obtain ⟨t2, ht2, hcl2⟩ := List.mem_filterMap.mp hmem
      have hname2 : treeName t2 ∈ ts.map treeName := List.mem_map_of_mem treeName ht2
      cases t with
      | dir n cc =>
        have hnm : nm = n := by simpa [classifyLib] using hcl.symm
        cases t2 with
        | dir n2 cc2 =>
          have hn2' : nm = n2 := by simpa [classifyLib] using hcl2.symm
          apply hn1
          rw [show treeName (FSTree.dir n cc) = n from rfl, ← hnm, hn2']
          exact hname2
        | file n2 c2 =>
          cases hpy : endsPy n2
          · simp [classifyLib, hpy] at hcl2
          · have hn2' : nm = dropPy n2 := by
              simp only [classifyLib, hpy, if_true, Option.some.injEq] at hcl2
              exact hcl2.symm
            exact hc (FSTree.dir n cc) (by simp) (FSTree.file n2 c2)
              (List.mem_cons_of_mem _ ht2) rfl (by simp [isPyFileT, hpy])
              (by simpa [treeName] using hnm.symm.trans hn2')
      | file n c =>
        cases hpy : endsPy n
        · simp [classifyLib, hpy] at hcl
        · have hnm : nm = dropPy n := by
            simp only [classifyLib, hpy, if_true, Option.some.injEq] at hcl
            exact hcl.symm
          cases t2 with
          | dir n2 cc2 =>
            have hn2' : nm = n2 := by simpa [classifyLib] using hcl2.symm
            exact hc (FSTree.dir n2 cc2) (List.mem_cons_of_mem _ ht2) (FSTree.file n c)
              (by simp) rfl (by simp [isPyFileT, hpy])
              (by simpa [treeName] using hn2'.symm.trans hnm)
          | file n2 c2 =>
            cases hpy2 : endsPy n2
            · simp [classifyLib, hpy2] at hcl2
            · have hn2' : nm = dropPy n2 := by
                simp only [classifyLib, hpy2, if_true, Option.some.injEq] at hcl2
                exact hcl2.symm
              have heq : n = n2 := dropPy_inj n n2 hpy hpy2 (hnm.symm.trans hn2')
              apply hn1
              rw [show treeName (FSTree.file n c) = n from rfl, heq]
              exact hname2

theorem rewriteForest_halt (ns : Text) (libs : List Text)
    (subs : List (Text → Text)) (path : Text) :
    ∀ (pre pre' : FSForest) (t t' : FSTree) (post : FSForest) (e : VendoringError),
      ForestOk ns libs subs path pre pre' →
      rewriteTree ns libs subs path t = (t', some e) →
      rewriteForest ns libs subs path (forestAppend pre (.cons t post)) =
        (forestAppend pre' (.cons t' post), some e)
  | .nil, pre', t, t', post, e => fun hok ht => by
    cases pre' with
    | cons a b => exact absurd hok (by simp [ForestOk])
    | nil => simp only [forestAppend, rewriteForest, ht]
  | .cons p ps, pre', t, t', post, e => fun hok ht => by
    cases pre' with
    | nil => exact absurd hok (by simp [ForestOk])
    | cons p' ps' =>
      obtain ⟨hp, hrest⟩ := hok
      have ihr := rewriteForest_halt ns libs subs path ps ps' t t' post e hrest ht
      simp only [forestAppend, rewriteForest, hp, ihr]

mutual
theorem maskTree_rewrite (ns : Text) (libs : List Text) (subs : List (Text → Text)) :
    ∀ (t : FSTree) (path : Text), maskTree (rewriteTree ns libs subs path t).1 = maskTree t
  | .file n c, path => by
    cases h : endsPy n
    · simp [rewriteTree, maskTree, h]
    · simp [rewriteTree, maskTree, h]
  | .dir n cs, path => by
    have ih := maskForest_rewrite ns libs subs cs (childPath path n)
    simp [rewriteTree, maskTree, ih]
theorem maskForest_rewrite (ns : Text) (libs : List Text) (subs : List (Text → Text)) :
    ∀ (cs : FSForest) (path : Text),
      maskForest (rewriteForest ns libs subs path cs).1 = maskForest cs
  | .nil, _ => rfl
  | .cons t ts, path => by
    have iht := maskTree_rewrite ns libs subs t path
    have ihf := maskForest_rewrite ns libs subs ts path
    cases h : rewriteTree ns libs subs path t with
    | mk t' err =>
      cases err with
      | none =>
        rw [h] at iht
        simp only [rewriteForest, h]
        simp [maskForest, iht, ihf]
      | some e =>
        rw [h] at iht
        simp only [rewriteForest, h]
        simp [maskForest, iht]
end
theorem takeSpaces_spaces (s : Text) : ∀ c ∈ (takeSpaces s).1, pyIsSpace c = true := by
  induction s with
  | nil => simp [takeSpaces]
  | cons d ds ih =>
    simp only [takeSpaces]
    cases hd : pyIsSpace d
    · simp
    · simp only [if_true]
      intro c hc
      rcases List.mem_cons.mp hc with rfl | hc
      · exact hd
      · exact ih c hc

theorem takeSpaces_append_all (a b : Text) (ha : ∀ c ∈ a, pyIsSpace c = true) :
    takeSpaces (a ++ b) = (a ++ (takeSpaces b).1, (takeSpaces b).2) := by
  induction a with
  | nil => simp
  | cons c cs ih =>
    have hc : pyIsSpace c = true := ha c (by simp)
    have ih2 := ih (fun x hx => ha x (by simp [hx]))
    rw [List.cons_append]
    simp [takeSpaces, hc, ih2]

theorem dropLit?_extend_none (v : Text) : ∀ (p r : Text), '\n' ∉ p →
    dropLit? p r = none → dropLit? p (r ++ '\n' :: v) = none
  | [], r, _, h => by simp [dropLit?] at h
  | d :: ds, [], hp, _ => by
    have hd : ¬(d = '\n') := fun hx => hp (hx ▸ List.mem_cons_self d ds)
    simp [dropLit?, hd]
  | d :: ds, c :: cs, hp, h => by
    simp only [dropLit?] at h
    by_cases hdc : d = c
    · simp only [hdc, if_true] at h
      rw [List.cons_append]
      simp only [dropLit?, hdc, if_true]
      exact dropLit?_extend_none v ds cs (fun hx => hp (List.mem_cons_of_mem d hx)) h
    · rw [List.cons_append]
      simp [dropLit?, hdc]

theorem matchPlain_nil (ns lib : Text) : matchPlain ns lib [] = none := by
  have h0 : dropLit? (importKw ++ lib) ([] : Text) = none := by
    rw [importKw_eq]
    rfl
  simp [matchPlain, takeSpaces, h0]

theorem matchPlain_allspace (ns lib l v : Text) (hl : ∀ x ∈ l, pyIsSpace x = true) :
    matchPlain ns lib (l ++ '\n' :: v) =
      (matchPlain ns lib v).map (fun x => (l ++ '\n' :: x.1, x.2.1, x.2.2)) := by
  have ht : takeSpaces (l ++ '\n' :: v) =
      (l ++ '\n' :: (takeSpaces v).1, (takeSpaces v).2) := by
    rw [takeSpaces_append_all l ('\n' :: v) hl]
    have hspn : pyIsSpace '\n' = true := by decide
    simp [takeSpaces, hspn]
  unfold matchPlain
  rw [ht]
  cases hD : dropLit? (importKw ++ lib) (takeSpaces v).2 with
  | none => simp
  | some s2 =>
    cases s2 with
    | nil => simp
    | cons c r2 =>
      cases hc : pyIsSpace c
      · simp [hc]
      · simp [hc]

theorem matchPlain_single_line (ns lib s rep rest : Text) (b : Bool)
    (hnl : '\n' ∉ s) (h : matchPlain ns lib s = some (rep, rest, b)) :
    b = false ∧ '\n' ∉ rest := by
  have hs := takeSpaces_eq s
  unfold matchPlain at h
  split at h
  · exact absurd h (by simp)
  · next heq =>
    simp only [Option.some.injEq, Prod.mk.injEq] at h
    obtain ⟨-, h2, h3⟩ := h
    exact ⟨h3.symm, by rw [← h2]; simp⟩
  · next c r2 heq =>
    have hdec := dropLit?_some _ _ _ heq
    have hmem : c ∈ s ∧ ∀ x ∈ r2, x ∈ s := by
      constructor
      · rw [← hs, hdec]
        simp
      · intro x hx
        rw [← hs, hdec]
        simp [hx]
    split at h
    · simp only [Option.some.injEq, Prod.mk.injEq] at h
      obtain ⟨-, h2, h3⟩ := h
      constructor
      · rw [← h3]
        simp only [beq_eq_false_iff_ne, ne_eq]
        intro hx
        exact hnl (hx ▸ hmem.1)
      · rw [← h2]
        intro hx
        exact hnl (hmem.2 '\n' hx)
    · exact absurd h (by simp)

theorem matchPlain_line_extend (ns lib l v rep rest : Text) (b : Bool)
    (hnl : '\n' ∉ l) (h : matchPlain ns lib l = some (rep, rest, b)) :
    (rest = [] ∧ matchPlain ns lib (l ++ '\n' :: v) = some (rep ++ ['\n'], v, true)) ∨
      ('\n' ∉ rest ∧
        matchPlain ns lib (l ++ '\n' :: v) = some (rep, rest ++ '\n' :: v, false)) := by
  have hs := takeSpaces_eq l
  unfold matchPlain at h
  split at h
  · exact absurd h (by simp)
  · next heq =>
    left
    simp only [Option.some.injEq, Prod.mk.injEq] at h
    obtain ⟨h1, h2, -⟩ := h
    have hdec := dropLit?_some _ _ _ heq
    rw [List.append_nil] at hdec
    obtain ⟨c0, r0, hc0⟩ : ∃ c0 r0, (takeSpaces l).2 = c0 :: r0 := by
      cases hx : (takeSpaces l).2 with
      | nil =>
        rw [hx] at hdec
        rw [importKw_eq] at hdec
        exact absurd hdec.symm (by simp)
      | cons a bb => exact ⟨a, bb, rfl⟩
    have hext := takeSpaces_extend l ('\n' :: v) c0 r0 (takeSpaces l).1 (by rw [← hc0])
    have hD2 : dropLit? (importKw ++ lib) (c0 :: (r0 ++ '\n' :: v)) = some ('\n' :: v) := by
      have he : c0 :: (r0 ++ '\n' :: v) = (importKw ++ lib) ++ ('\n' :: v) := by
        rw [← List.cons_append, ← hc0, hdec]
      rw [he, dropLit?_of_append]
    refine ⟨h2.symm, ?_⟩
    have hspn : pyIsSpace '\n' = true := by decide
    unfold matchPlain
    rw [hext]
    simp only [hD2, hspn, if_true]
    rw [← h1]
    simp
  · next c r2 heq =>
    right
    have hdec := dropLit?_some _ _ _ heq
    have hcmem : c ∈ l := by
      rw [← hs, hdec]
      simp
    have hr2mem : ∀ x ∈ r2, x ∈ l := by
      intro x hx
      rw [← hs, hdec]
      simp [hx]
    split at h
    · next hcsp =>
      simp only [Option.some.injEq, Prod.mk.injEq] at h
      obtain ⟨h1, h2, h3⟩ := h
      obtain ⟨c0, r0, hc0⟩ : ∃ c0 r0, (takeSpaces l).2 = c0 :: r0 := by
        cases hx : (takeSpaces l).2 with
        | nil =>
          rw [hx] at hdec
          rw [importKw_eq] at hdec
          exact absurd hdec.symm (by simp)
        | cons a bb => exact ⟨a, bb, rfl⟩
      have hext := takeSpaces_extend l ('\n' :: v) c0 r0 (takeSpaces l).1 (by rw [← hc0])
      have hD2 : dropLit? (importKw ++ lib) (c0 :: (r0 ++ '\n' :: v)) =
          some (c :: (r2 ++ '\n' :: v)) := by
        have he : c0 :: (r0 ++ '\n' :: v) = (importKw ++ lib) ++ (c :: (r2 ++ '\n' :: v)) := by
          rw [← List.cons_append, ← hc0, hdec]
          simp [List.append_assoc]
        rw [he, dropLit?_of_append]
      have hcb : (c == '\n') = false := by
        simp only [beq_eq_false_iff_ne, ne_eq]
        intro hx
        exact hnl (hx ▸ hcmem)
      refine ⟨by rw [← h2]; intro hx; exact hnl (hr2mem '\n' hx), ?_⟩
      unfold matchPlain
      rw [hext]
      simp only [hD2, hcsp, if_true]
      rw [← h1, ← h2]
      simp [hcb]
    · exact absurd h (by simp)

theorem matchPlain_none_extend (ns lib l v : Text)
    (hpat : '\n' ∉ importKw ++ lib)
    (h : matchPlain ns lib l = none) (hsolid : (takeSpaces l).2 ≠ []) :
    matchPlain ns lib (l ++ '\n' :: v) = none := by
  obtain ⟨c0, r0, hc0⟩ : ∃ c0 r0, (takeSpaces l).2 = c0 :: r0 := by
    cases hx : (takeSpaces l).2 with
    | nil => exact absurd hx hsolid
    | cons a bb => exact ⟨a, bb, rfl⟩
  have hext := takeSpaces_extend l ('\n' :: v) c0 r0 (takeSpaces l).1 (by rw [← hc0])
  unfold matchPlain at h
  split at h
  · next heq =>
    have hD2 : dropLit? (importKw ++ lib) (c0 :: (r0 ++ '\n' :: v)) = none := by
      rw [← List.cons_append, ← hc0]
      exact dropLit?_extend_none v (importKw ++ lib) (takeSpaces l).2 hpat heq
    unfold matchPlain
    rw [hext]
    simp [hD2]
  · exact absurd h (by simp)
  · next c r2 heq =>
    have hdec := dropLit?_some _ _ _ heq
    have hcsp : pyIsSpace c = false := by
      cases hx : pyIsSpace c
      · rfl
      · rw [hx] at h
        simp at h
    have hD2 : dropLit? (importKw ++ lib) (c0 :: (r0 ++ '\n' :: v)) =
        some (c :: (r2 ++ '\n' :: v)) := by
      have he : c0 :: (r0 ++ '\n' :: v) = (importKw ++ lib) ++ (c :: (r2 ++ '\n' :: v)) := by
        rw [← List.cons_append, ← hc0, hdec]
        simp [List.append_assoc]
      rw [he, dropLit?_of_append]
    unfold matchPlain
    rw [hext]
    simp [hD2, hcsp]

theorem subScan_line_none (m : Text → Option (Text × Text × Bool)) (l v : Text)
    (hnl : '\n' ∉ l) (hfull : m (l ++ '\n' :: v) = none) :
    reSubAnchored m (l ++ '\n' :: v) = l ++ '\n' :: reSubAnchored m v := by
  cases l with
  | nil =>
    simp only [List.nil_append] at hfull ⊢
    simp only [reSubAnchored, List.length_cons, subScan, if_true, hfull]
    simp
  | cons c cs =>
    have hcb : (c == '\n') = false := by
      simp only [beq_eq_false_iff_ne, ne_eq]
      intro hx
      exact hnl (hx ▸ List.mem_cons_self c cs)
    have hlen2 : (cs ++ '\n' :: v).length = cs.length + 1 + v.length := by
      simp
      omega
    rw [List.cons_append] at hfull
    simp only [reSubAnchored, List.cons_append, List.append_eq, List.length_cons, subScan,
      if_true, hfull, hcb, Bool.false_eq_true, if_false]
    rw [hlen2, subScan_skip m cs v v.length (fun hx => hnl (List.mem_cons_of_mem c hx))]

theorem reSub_plain_lineStep (ns lib l v : Text) (hnl : '\n' ∉ l)
    (hlib : isIdentText lib = true) :
    reSubAnchored (matchPlain ns lib) (l ++ '\n' :: v) =
      lineRewrite (matchPlain ns lib) l ++ '\n' :: reSubAnchored (matchPlain ns lib) v := by
  have hpat : '\n' ∉ importKw ++ lib :=
    not_mem_append2 (by decide) (ident_no_nl lib hlib)
  have hirrel := subScan_fuel_irrel (matchPlain ns lib)
    (fun s rep rest b => matchPlain_consumes ns lib s rep rest b)
  cases hl : matchPlain ns lib l with
  | none =>
    have hlr : lineRewrite (matchPlain ns lib) l = l := by simp [lineRewrite, hl]
    by_cases hsp2 : (takeSpaces l).2 = []
    · have hall : ∀ x ∈ l, pyIsSpace x = true := by
        intro x hx
        have hx1 : x ∈ (takeSpaces l).1 := by
          have he := takeSpaces_eq l
          rw [hsp2, List.append_nil] at he
          rw [he]
          exact hx
        exact takeSpaces_spaces l x hx1
      have hfull := matchPlain_allspace ns lib l v hall
      cases hv : matchPlain ns lib v with
      | none =>
        rw [hv] at hfull
        simp only [Option.map_none'] at hfull
        rw [hlr]
        exact subScan_line_none (matchPlain ns lib) l v hnl hfull
      | some trip =>
        obtain ⟨rv, restv, bv⟩ := trip
        rw [hv] at hfull
        simp only [Option.map_some'] at hfull
        obtain ⟨c', cs', rfl⟩ : ∃ c' cs', v = c' :: cs' := by
          cases v with
          | nil => exact absurd (matchPlain_nil ns lib ▸ hv) (by simp)
          | cons a bb => exact ⟨a, bb, rfl⟩
        have hrlt := matchPlain_consumes ns lib _ _ _ _ hv
        simp only [List.length_cons] at hrlt
        cases l with
        | nil =>
          simp only [List.nil_append] at hfull ⊢
          simp only [reSubAnchored, List.length_cons, subScan, if_true, hfull, hv, hlr]
          rw [hirrel (cs'.length + 1) restv.length bv restv (by omega) (by omega),
            hirrel cs'.length restv.length bv restv (by omega) (by omega)]
          simp
        | cons c cs =>
          have hlen2 : (cs ++ '\n' :: c' :: cs').length = cs.length + 1 + (cs'.length + 1) := by
            simp
            omega
          rw [List.cons_append] at hfull
          simp only [reSubAnchored, List.cons_append, List.append_eq, List.length_cons,
            subScan, if_true, hfull, hv, hlr]
          rw [hlen2]
          rw [hirrel (cs.length + 1 + (cs'.length + 1)) restv.length bv restv
            (by omega) (by omega),
            hirrel cs'.length restv.length bv restv (by omega) (by omega)]
          simp [List.append_assoc]
    · have hfull := matchPlain_none_extend ns lib l v hpat hl hsp2
      rw [hlr]
      exact subScan_line_none (matchPlain ns lib) l v hnl hfull
  | some trip =>
    obtain ⟨rep, rest, b⟩ := trip
    obtain ⟨c, cs, rfl⟩ : ∃ c cs, l = c :: cs := by
      cases l with
      | nil => exact absurd (matchPlain_nil ns lib ▸ hl) (by simp)
      | cons a bb => exact ⟨a, bb, rfl⟩
    have hlr : lineRewrite (matchPlain ns lib) (c :: cs) = rep ++ rest := by
      simp [lineRewrite, hl]
    have hrlt := matchPlain_consumes ns lib _ _ _ _ hl
    simp only [List.length_cons] at hrlt
    have hlen2 : (cs ++ '\n' :: v).length = cs.length + 1 + v.length := by
      simp
      omega
    rcases matchPlain_line_extend ns lib (c :: cs) v rep rest b hnl hl with
      ⟨hrnil, hfull⟩ | ⟨hrestnl, hfull⟩
    · rw [List.cons_append] at hfull
      simp only [reSubAnchored, List.cons_append, List.append_eq, List.length_cons,
        subScan, if_true, hfull]
      rw [hlen2]
      rw [hirrel (cs.length + 1 + v.length) v.length true v (by omega) (by omega)]
      rw [hlr, hrnil]
      simp [reSubAnchored, List.append_assoc]
    · rw [List.cons_append] at hfull
      simp only [reSubAnchored, List.cons_append, List.append_eq, List.length_cons,
        subScan, if_true, hfull]
      rw [hlen2]
      have harith : cs.length + 1 + v.length =
          rest.length + 1 + (cs.length + v.length - rest.length) := by
        omega
      rw [harith, subScan_skip (matchPlain ns lib) rest v _ hrestnl]
      rw [hirrel (cs.length + v.length - rest.length) v.length true v
        (by omega) (by omega)]
      rw [hlr]
      simp [reSubAnchored, List.append_assoc]

theorem joinLines_cons (x : Text) (ls : List Text) (h : ls ≠ []) :
    joinLines (x :: ls) = x ++ '\n' :: joinLines ls := by
  cases ls with
  | nil => exact absurd rfl h
  | cons a bb => rfl

theorem reSub_plain_lines_aux (ns lib : Text) (hlib : isIdentText lib = true) :
    ∀ (n : Nat) (t : Text), t.length ≤ n →
      reSubAnchored (matchPlain ns lib) t =
        joinLines ((splitLines t).map (lineRewrite (matchPlain ns lib))) := by
  intro n
  induction n with
  | zero =>
    intro t ht
    have : t = [] := List.length_eq_zero.mp (Nat.le_zero.mp ht)
    subst this
    simp [reSubAnchored, subScan, splitLines, joinLines, lineRewrite, matchPlain_nil]
  | succ n ih =>
    intro t ht
    rcases splitLines_decomp t with ⟨hn2, hs⟩ | ⟨l, v, rfl, hlnl, hs⟩
    · rw [hs]
      simp only [List.map_cons, List.map_nil, joinLines]
      cases hm : matchPlain ns lib t with
      | none =>
        rw [reSub_single_none _ _ hn2 hm]
        simp [lineRewrite, hm]
      | some trip =>
        obtain ⟨rep, rest, b⟩ := trip
        obtain ⟨hb, hrest⟩ := matchPlain_single_line ns lib t rep rest b hn2 hm
        subst hb
        have htc : ∃ c cs, t = c :: cs := by
          cases t with
          | nil => exact absurd (matchPlain_nil ns lib ▸ hm) (by simp)
          | cons a bb => exact ⟨a, bb, rfl⟩
        obtain ⟨c, cs, rfl⟩ := htc
        rw [reSub_single_some (matchPlain ns lib) c cs rep rest hm hrest]
        simp [lineRewrite, hm]
    · rw [hs]
      have hvlen : v.length ≤ n := by
        simp only [List.length_append, List.length_cons] at ht
        omega
      rw [reSub_plain_lineStep ns lib l v hlnl hlib, ih v hvlen]
      rw [List.map_cons, joinLines_cons]
      intro hx
      exact absurd (List.map_eq_nil_iff.mp hx) (splitLines_ne_nil v)

/-- C1: for every library name and namespace, if after rule 1 (the
plain-import rule) and rule 2 (the aliased dotted-import rule) have run
there is still a line matching the unaliased dotted import pattern
`^\s*(import {lib}\.\S+)`, then `rewrite_file_imports` raises
`VendoringError`: the search over the current text succeeds at some match
start, the per-library processing returns the error whose line number is
one plus the number of newline characters before the match start in the
current (partially rewritten) text, and the error's message contains the
offending file's path, that 1-based line number, and the matched import
statement text. -/
theorem claim_C1_unaliased_dotted_aborts (item ns lib text t2 : Text)
    (ht2 : t2 = reSubAnchored (matchAliased ns lib) (reSubAnchored (matchPlain ns lib) text))
    (hline : ∃ l ∈ splitLines t2, (matchDotted lib l).isSome) :
    ∃ start g, searchDotted lib t2 = some (start, g) ∧
      processLib item ns lib text =
        Except.error (VendoringError.mk item (countNl t2 start + 1) g) ∧
      ContainsSub (VendoringError.mk item (countNl t2 start + 1) g).message item ∧
      ContainsSub (VendoringError.mk item (countNl t2 start + 1) g).message
        (natText (countNl t2 start + 1)) ∧
      ContainsSub (VendoringError.mk item (countNl t2 start + 1) g).message g := by
  obtain ⟨l, hl, hm⟩ := hline
  subst ht2
  cases hsd : searchDotted lib
      (reSubAnchored (matchAliased ns lib) (reSubAnchored (matchPlain ns lib) text)) with
  | none =>
    have hnone := searchScan_none_lines lib _ true 0 hsd l (by simpa using hl)
    rw [hnone] at hm
    simp at hm
  | some pg =>
    obtain ⟨start, g⟩ := pg
    refine ⟨start, g, rfl, ?_, (vendoringError_message_parts _).1,
      (vendoringError_message_parts _).2.1, (vendoringError_message_parts _).2.2⟩
    simp only [processLib, hsd]

/-- Witness for C1 at a concrete input: the file `f.py` containing
`import a.b` (line 1) with library `a` and namespace `v`. -/
theorem claim_C1_unaliased_dotted_aborts_witness :
    ∃ start g, searchDotted (("a").toList) (("import a.b\n").toList) = some (start, g) ∧
      processLib (("f.py").toList) (("v").toList) (("a").toList) (("import a.b\n").toList) =
        Except.error (VendoringError.mk (("f.py").toList)
          (countNl (("import a.b\n").toList) start + 1) g) ∧
      ContainsSub (VendoringError.mk (("f.py").toList)
        (countNl (("import a.b\n").toList) start + 1) g).message (("f.py").toList) ∧
      ContainsSub (VendoringError.mk (("f.py").toList)
        (countNl (("import a.b\n").toList) start + 1) g).message
        (natText (countNl (("import a.b\n").toList) start + 1)) ∧
      ContainsSub (VendoringError.mk (("f.py").toList)
        (countNl (("import a.b\n").toList) start + 1) g).message g := by
  exact claim_C1_unaliased_dotted_aborts (("f.py").toList) (("v").toList) (("a").toList)
    (("import a.b\n").toList) (("import a.b\n").toList) (by decide) (by decide)

/-- Counterexample to C2 as stated: the claim quantifies over every
non-empty namespace, but with library `a` and namespace `a` the aliased dotted
line `import a.b as c` is first rewritten by rule 2 to
`import a.a.b as c`, which rule 3's search then matches, raising the
fatal error — so an aliased dotted line can trigger the fatal error. -/
theorem claim_C2_counterexample :
    processLib (("f.py").toList) (("a").toList) (("a").toList)
        (("import a.b as c").toList) =
      Except.error (VendoringError.mk (("f.py").toList) 1 (("import a.a.b").toList)) := by
  decide

/-- C2 amended: for a library name `L` (an identifier) and a non-empty
namespace `N` that is neither `L` itself nor starts with `L.` and has no
whitespace, a line `import L.sub as alias` is rewritten by rule 2 to the
line `import N.L.sub as alias` (indentation and the `.sub as alias`
suffix preserved verbatim), and — because rule 2 runs before the
unaliased dotted-import check — the per-library processing succeeds
without raising the fatal error. -/
theorem claim_C2_aliased_dotted_rewrite (item ns lib w sub al : Text)
    (hw : ∀ x ∈ w, pyIsSpace x = true) (hwnl : '\n' ∉ w)
    (hlib : isIdentText lib = true)
    (hsub : ∀ x ∈ sub, pyIsSpace x = false) (hsubne : sub ≠ [])
    (hal : '\n' ∉ al)
    (hok : NsOkFor ns lib) :
    processLib item ns lib
        (w ++ (importKw ++ (lib ++ '.' :: (sub ++ ' ' :: 'a' :: 's' :: (' ' :: al))))) =
      Except.ok ((w ++ importKw ++ ns ++ ['.'] ++ lib ++ ['.'] ++ sub)
        ++ (' ' :: 'a' :: 's' :: (' ' :: al))) := by
  have hlibnl : '\n' ∉ lib := ident_no_nl lib hlib
  have hsubnl : '\n' ∉ sub := solid_no_nl sub hsub
  have hnsnl : '\n' ∉ ns := solid_no_nl ns hok.2.2
  have hkwnl : '\n' ∉ importKw := by decide
  have hrestnl : '\n' ∉ (' ' :: 'a' :: 's' :: (' ' :: al)) :=
    not_mem_cons2 (by decide) (not_mem_cons2 (by decide) (not_mem_cons2 (by decide)
      (not_mem_cons2 (by decide) hal)))
  have htextnl : '\n' ∉ (w ++ (importKw ++ (lib ++ '.' :: (sub ++ ' ' :: 'a' :: 's' :: (' ' :: al))))) :=
    not_mem_append2 hwnl (not_mem_append2 hkwnl (not_mem_append2 hlibnl
      (not_mem_cons2 (by decide) (not_mem_append2 hsubnl hrestnl))))
  have h1 : reSubAnchored (matchPlain ns lib)
      (w ++ (importKw ++ (lib ++ '.' :: (sub ++ ' ' :: 'a' :: 's' :: (' ' :: al))))) =
      (w ++ (importKw ++ (lib ++ '.' :: (sub ++ ' ' :: 'a' :: 's' :: (' ' :: al))))) :=
    reSub_single_none _ _ htextnl (matchPlain_solid ns lib w _ '.' hw (by decide))
  have h2 : reSubAnchored (matchAliased ns lib)
      (w ++ (importKw ++ (lib ++ '.' :: (sub ++ ' ' :: 'a' :: 's' :: (' ' :: al))))) =
      (w ++ importKw ++ ns ++ ['.'] ++ lib ++ ['.'] ++ sub)
        ++ (' ' :: 'a' :: 's' :: (' ' :: al)) := by
    apply reSub_single_some' _ _ _ _ _ (matchAliased_hit ns lib w sub (' ' :: al) hw hsub hsubne) hrestnl
    intro hx
    rw [importKw_eq] at hx
    rcases List.append_eq_nil.mp hx with ⟨-, h⟩
    rcases List.append_eq_nil.mp h with ⟨h2, -⟩
    exact List.cons_ne_nil _ _ h2
  have hshape : (w ++ importKw ++ ns ++ ['.'] ++ lib ++ ['.'] ++ sub)
        ++ (' ' :: 'a' :: 's' :: (' ' :: al)) =
      w ++ (importKw ++ (ns ++ '.' :: (lib ++ '.' :: (sub ++ (' ' :: 'a' :: 's' :: (' ' :: al)))))) := by
    simp [List.append_assoc]
  have ht2nl : '\n' ∉ (w ++ importKw ++ ns ++ ['.'] ++ lib ++ ['.'] ++ sub)
      ++ (' ' :: 'a' :: 's' :: (' ' :: al)) := by
    rw [hshape]
    exact not_mem_append2 hwnl (not_mem_append2 hkwnl (not_mem_append2 hnsnl
      (not_mem_cons2 (by decide) (not_mem_append2 hlibnl (not_mem_cons2 (by decide)
        (not_mem_append2 hsubnl hrestnl))))))
  have h3 : searchDotted lib ((w ++ importKw ++ ns ++ ['.'] ++ lib ++ ['.'] ++ sub)
      ++ (' ' :: 'a' :: 's' :: (' ' :: al))) = none := by
    apply searchDotted_single lib _ ht2nl
    rw [hshape]
    exact matchDotted_ns ns lib w _ hw hlib hok
  have h4 : reSubAnchored (matchFromImport ns lib)
      ((w ++ importKw ++ ns ++ ['.'] ++ lib ++ ['.'] ++ sub)
        ++ (' ' :: 'a' :: 's' :: (' ' :: al))) =
      (w ++ importKw ++ ns ++ ['.'] ++ lib ++ ['.'] ++ sub)
        ++ (' ' :: 'a' :: 's' :: (' ' :: al)) := by
    apply reSub_single_none _ _ ht2nl
    rw [hshape]
    exact matchFromImport_noFrom ns lib w _ hw
  simp only [processLib, h1, h2, h3, h4]

/-- Witness for the amended C2 at `    import a.b as c` with namespace
`v`: the line becomes `    import v.a.b as c` and no error is raised. -/
theorem claim_C2_aliased_dotted_rewrite_witness :
    processLib (("f.py").toList) (("v").toList) (("a").toList)
        ((("    ").toList) ++ (importKw ++ ((("a").toList) ++ '.' :: ((("b").toList) ++ ' ' :: 'a' :: 's' :: (' ' :: (("c").toList)))))) =
      Except.ok (((("    ").toList ++ importKw ++ ("v").toList ++ ['.'] ++ ("a").toList ++ ['.'] ++ ("b").toList))
        ++ (' ' :: 'a' :: 's' :: (' ' :: ("c").toList))) := by
  exact claim_C2_aliased_dotted_rewrite (("f.py").toList) (("v").toList) (("a").toList)
    (("    ").toList) (("b").toList) (("c").toList)
    (by decide) (by decide) (by decide) (by decide) (by decide) (by decide)
    ⟨by decide, by intro r h; simp at h, by decide⟩

/-- Counterexample to C3 as stated: the claim quantifies over every
non-empty namespace, but with library `a` and namespace `a` the line
`import a` is first rewritten by rule 1 to `from a import a`, which
rule 4 (`from a` followed by a dot or whitespace) then re-matches,
yielding `from a.a import a` — not the claimed `from a import a`. -/
theorem claim_C3_counterexample :
    processLib (("f.py").toList) (("a").toList) (("a").toList)
        (("import a").toList) =
      Except.ok (("from a.a import a").toList) ∧
    (("from a.a import a").toList) ≠ (("from a import a").toList) := by
  decide

/-- C3 amended: for a library name `L` (an identifier) and a namespace
`N` with no whitespace that is neither `L` itself nor starts with `L.`,
a single-line file of the exact form `import L` — at end of file or
followed by a whitespace character — is rewritten by
`rewrite_file_imports` to `from N import L` with indentation and
trailing content preserved, and a line where `L` is merely a prefix of a
longer identifier (`import L<ident-char>...`) is left completely
unchanged.  Moreover (last conjunct) the plain-import rule processes
every line of an arbitrary multi-line text independently (MULTILINE `^`
anchoring): its global substitution equals rewriting each line of the
text separately. -/
theorem claim_C3_plain_import_rewrite (item ns lib : Text)
    (hlib : isIdentText lib = true) (hok : NsOkFor ns lib) :
    (∀ w, (∀ x ∈ w, pyIsSpace x = true) → '\n' ∉ w →
      processLib item ns lib (w ++ (importKw ++ lib)) =
        Except.ok (w ++ fromKw ++ ns ++ (" import ").toList ++ lib)) ∧
    (∀ w (c : Char) t', (∀ x ∈ w, pyIsSpace x = true) → '\n' ∉ w →
      pyIsSpace c = true → c ≠ '\n' → '\n' ∉ t' →
      processLib item ns lib (w ++ (importKw ++ (lib ++ c :: t'))) =
        Except.ok ((w ++ fromKw ++ ns ++ (" import ").toList ++ lib ++ [c]) ++ t')) ∧
    (∀ w (c : Char) t', (∀ x ∈ w, pyIsSpace x = true) → '\n' ∉ w →
      pyIsIdentChar c = true → '\n' ∉ t' →
      processLib item ns lib (w ++ (importKw ++ (lib ++ c :: t'))) =
        Except.ok (w ++ (importKw ++ (lib ++ c :: t')))) ∧
    (∀ t : Text, reSubAnchored (matchPlain ns lib) t =
      joinLines ((splitLines t).map (lineRewrite (matchPlain ns lib)))) := by
  have hlibnl := ident_no_nl lib hlib
  have hnsnl := solid_no_nl ns hok.2.2
  have hkwnl : '\n' ∉ importKw := by decide
  have hfkwnl : '\n' ∉ fromKw := by decide
  have hsp : (" import ").toList = ' ' :: importKw := rfl
  refine ⟨?_, ?_, ?_, fun t => reSub_plain_lines_aux ns lib hlib t.length t le_rfl⟩
  · intro w hw hwnl
    have htextnl : '\n' ∉ w ++ (importKw ++ lib) :=
      not_mem_append2 hwnl (not_mem_append2 hkwnl hlibnl)
    have h1 : reSubAnchored (matchPlain ns lib) (w ++ (importKw ++ lib)) =
        w ++ (fromKw ++ (ns ++ ' ' :: (importKw ++ lib))) := by
      rw [reSub_single_some' _ _ _ _ (ne_nil_import w lib) (matchPlain_eos ns lib w hw)
        (by simp)]
      simp [hsp, importKw_eq, fromKw_eq, List.append_assoc]
    have ht1nl : '\n' ∉ w ++ (fromKw ++ (ns ++ ' ' :: (importKw ++ lib))) :=
      not_mem_append2 hwnl (not_mem_append2 hfkwnl (not_mem_append2 hnsnl
        (not_mem_cons2 (by decide) (not_mem_append2 hkwnl hlibnl))))
    have h2 := reSub_single_none _ _ ht1nl (matchAliased_noImport ns lib w _ hw)
    have h3 := searchDotted_single _ _ ht1nl (matchDotted_noImport lib w _ hw)
    have h4 := reSub_single_none _ _ ht1nl (matchFromImport_ns ns ns lib w _ hw hlib hok)
    simp only [processLib, h1, h2, h3, h4]
    congr 1
    simp [hsp, importKw_eq, fromKw_eq, List.append_assoc]
  · intro w c t' hw hwnl hc hcnl htnl
    have hcb : (c == '\n') = false := by simp [hcnl]
    have hm := matchPlain_space ns lib w t' c hw hc
    rw [hcb] at hm
    have hnlc : '\n' ≠ c := fun hx => hcnl hx.symm
    have htextnl : '\n' ∉ w ++ (importKw ++ (lib ++ c :: t')) :=
      not_mem_append2 hwnl (not_mem_append2 hkwnl (not_mem_append2 hlibnl
        (not_mem_cons2 hnlc htnl)))
    have h1 : reSubAnchored (matchPlain ns lib) (w ++ (importKw ++ (lib ++ c :: t'))) =
        w ++ (fromKw ++ (ns ++ ' ' :: (importKw ++ (lib ++ c :: t')))) := by
      rw [reSub_single_some' _ _ _ _ (ne_nil_import w (lib ++ c :: t')) hm htnl]
      simp [hsp, importKw_eq, fromKw_eq, List.append_assoc]
    have ht1nl : '\n' ∉ w ++ (fromKw ++ (ns ++ ' ' :: (importKw ++ (lib ++ c :: t')))) :=
      not_mem_append2 hwnl (not_mem_append2 hfkwnl (not_mem_append2 hnsnl
        (not_mem_cons2 (by decide) (not_mem_append2 hkwnl (not_mem_append2 hlibnl
          (not_mem_cons2 hnlc htnl))))))
    have h2 := reSub_single_none _ _ ht1nl (matchAliased_noImport ns lib w _ hw)
    have h3 := searchDotted_single _ _ ht1nl (matchDotted_noImport lib w _ hw)
    have h4 := reSub_single_none _ _ ht1nl (matchFromImport_ns ns ns lib w _ hw hlib hok)
    simp only [processLib, h1, h2, h3, h4]
    congr 1
    simp [hsp, importKw_eq, fromKw_eq, List.append_assoc]
  · intro w c t' hw hwnl hcid htnl
    have hcns := ident_nonspace c hcid
    have hcd := ident_ne_dot c hcid
    have hnlc : '\n' ≠ c := by
      intro hx
      rw [← hx] at hcid
      exact absurd hcid (by decide)
    have htextnl : '\n' ∉ w ++ (importKw ++ (lib ++ c :: t')) :=
      not_mem_append2 hwnl (not_mem_append2 hkwnl (not_mem_append2 hlibnl
        (not_mem_cons2 hnlc htnl)))
    have h1 := reSub_single_none _ _ htextnl (matchPlain_solid ns lib w t' c hw hcns)
    have h2 := reSub_single_none _ _ htextnl (matchAliased_nondot ns lib w t' c hw hcd)
    have h3 := searchDotted_single _ _ htextnl (matchDotted_nondot lib w t' c hw hcd)
    have h4 := reSub_single_none _ _ htextnl (matchFromImport_noFrom ns lib w _ hw)
    simp only [processLib, h1, h2, h3, h4]

/-- Witness for C3: `  import a` (with trailing newline-free comment) is
rewritten to `  from v import a`, `import a ` keeps its trailing space,
and `import abc` with library `a` is untouched. -/
theorem claim_C3_plain_import_rewrite_witness :
    (processLib (("f.py").toList) (("v").toList) (("a").toList)
        (("  ").toList ++ (importKw ++ ("a").toList)) =
      Except.ok (("  ").toList ++ fromKw ++ ("v").toList ++ (" import ").toList
        ++ ("a").toList)) ∧
    (processLib (("f.py").toList) (("v").toList) (("a").toList)
        ([] ++ (importKw ++ (("a").toList ++ ' ' :: ("# x").toList))) =
      Except.ok (([] ++ fromKw ++ ("v").toList ++ (" import ").toList
        ++ ("a").toList ++ [' ']) ++ ("# x").toList)) ∧
    (processLib (("f.py").toList) (("v").toList) (("a").toList)
        ([] ++ (importKw ++ (("a").toList ++ 'b' :: ("c").toList))) =
      Except.ok ([] ++ (importKw ++ (("a").toList ++ 'b' :: ("c").toList)))) ∧
    (reSubAnchored (matchPlain (("v").toList) (("a").toList)) (("x = 1\nimport a\ny = 2").toList) =
      joinLines ((splitLines (("x = 1\nimport a\ny = 2").toList)).map
        (lineRewrite (matchPlain (("v").toList) (("a").toList))))) := by
  have h := claim_C3_plain_import_rewrite (("f.py").toList) (("v").toList) (("a").toList)
    (by decide) ⟨by decide, by intro r hr; simp at hr, by decide⟩
  exact ⟨h.1 (("  ").toList) (by decide) (by decide),
    h.2.1 [] ' ' (("# x").toList) (by decide) (by decide) (by decide) (by decide) (by decide),
    h.2.2.1 [] 'b' (("c").toList) (by decide) (by decide) (by decide) (by decide),
    h.2.2.2 (("x = 1\nimport a\ny = 2").toList)⟩

/-- C4: for a library name `L` (an identifier) and any namespace `N`, a
single line `from L<sep>...` where the separator is a dot or whitespace
is rewritten by `rewrite_file_imports` to `from N.L<sep>...` — covering
both `from L import x` and `from L.sub import x` — while a relative
one, `from .<anything>`, is left completely unchanged. -/
theorem claim_C4_from_import_rewrite (item ns lib : Text)
    (hlib : isIdentText lib = true) :
    (∀ w (c : Char) t', (∀ x ∈ w, pyIsSpace x = true) → '\n' ∉ w →
      (c = '.' ∨ pyIsSpace c = true) → c ≠ '\n' → '\n' ∉ t' →
      processLib item ns lib (w ++ (fromKw ++ (lib ++ c :: t'))) =
        Except.ok ((w ++ fromKw ++ ns ++ ['.'] ++ lib ++ [c]) ++ t')) ∧
    (∀ w t', (∀ x ∈ w, pyIsSpace x = true) → '\n' ∉ w → '\n' ∉ t' →
      processLib item ns lib (w ++ (fromKw ++ ('.' :: t'))) =
        Except.ok (w ++ (fromKw ++ ('.' :: t')))) := by
  have hlibnl := ident_no_nl lib hlib
  have hfkwnl : '\n' ∉ fromKw := by decide
  refine ⟨?_, ?_⟩
  · intro w c t' hw hwnl hc hcnl htnl
    have hcb : (c = '.' || pyIsSpace c) = true := by
      rcases hc with hc | hc <;> simp [hc]
    have hcbeq : (c == '\n') = false := by simp [hcnl]
    have hm := matchFromImport_hit ns lib w t' c hw hcb
    rw [hcbeq] at hm
    have hnlc : '\n' ≠ c := fun hx => hcnl hx.symm
    have htextnl : '\n' ∉ w ++ (fromKw ++ (lib ++ c :: t')) :=
      not_mem_append2 hwnl (not_mem_append2 hfkwnl (not_mem_append2 hlibnl
        (not_mem_cons2 hnlc htnl)))
    have h1 := reSub_single_none _ _ htextnl (matchPlain_noImport ns lib w _ hw)
    have h2 := reSub_single_none _ _ htextnl (matchAliased_noImport ns lib w _ hw)
    have h3 := searchDotted_single _ _ htextnl (matchDotted_noImport lib w _ hw)
    have h4 := reSub_single_some' _ _ _ _ (ne_nil_from w (lib ++ c :: t')) hm htnl
    simp only [processLib, h1, h2, h3, h4]
  · intro w t' hw hwnl htnl
    have htextnl : '\n' ∉ w ++ (fromKw ++ ('.' :: t')) :=
      not_mem_append2 hwnl (not_mem_append2 hfkwnl (not_mem_cons2 (by decide) htnl))
    have h1 := reSub_single_none _ _ htextnl (matchPlain_noImport ns lib w _ hw)
    have h2 := reSub_single_none _ _ htextnl (matchAliased_noImport ns lib w _ hw)
    have h3 := searchDotted_single _ _ htextnl (matchDotted_noImport lib w _ hw)
    have h4 := reSub_single_none _ _ htextnl (matchFromImport_rel ns lib w t' hw hlib)
    simp only [processLib, h1, h2, h3, h4]

/-- Witness for C4: `from a import x` becomes `from v.a import x`,
`from a.sub import x` becomes `from v.a.sub import x`, and
`from . import x` is untouched. -/
theorem claim_C4_from_import_rewrite_witness :
    (processLib (("f.py").toList) (("v").toList) (("a").toList)
        ([] ++ (fromKw ++ (("a").toList ++ ' ' :: ("import x").toList))) =
      Except.ok (([] ++ fromKw ++ ("v").toList ++ ['.'] ++ ("a").toList ++ [' '])
        ++ ("import x").toList)) ∧
    (processLib (("f.py").toList) (("v").toList) (("a").toList)
        ([] ++ (fromKw ++ (("a").toList ++ '.' :: ("sub import x").toList))) =
      Except.ok (([] ++ fromKw ++ ("v").toList ++ ['.'] ++ ("a").toList ++ ['.'])
        ++ ("sub import x").toList)) ∧
    (processLib (("f.py").toList) (("v").toList) (("a").toList)
        ([] ++ (fromKw ++ ('.' :: (" import x").toList))) =
      Except.ok ([] ++ (fromKw ++ ('.' :: (" import x").toList)))) := by
  have h := claim_C4_from_import_rewrite (("f.py").toList) (("v").toList) (("a").toList)
    (by decide)
  exact ⟨h.1 [] ' ' (("import x").toList) (by decide) (by decide) (Or.inr (by decide))
      (by decide) (by decide),
    h.1 [] '.' (("sub import x").toList) (by decide) (by decide) (Or.inl rfl)
      (by decide) (by decide),
    h.2 [] ((" import x").toList) (by decide) (by decide) (by decide)⟩

/-- Counterexample to C5 as stated: the claim says the transformed text is
written back "when the first fatal error is raised while processing that
file", but `item.write_text` is the final statement of
`rewrite_file_imports` and a raised `VendoringError` propagates before it
executes.  On `import a\nimport a.b\n` the first line is rewritten in
memory (so the transformed text differs from the original), rule 3 then
raises on line 2, and the file keeps its original content. -/
theorem claim_C5_counterexample :
    (rewrite_file_imports (("f.py").toList) (("v").toList) [("a").toList] []
        (("import a\nimport a.b\n").toList)).1 =
      ("import a\nimport a.b\n").toList ∧
    (rewrite_file_imports (("f.py").toList) (("v").toList) [("a").toList] []
        (("import a\nimport a.b\n").toList)).2.isSome = true ∧
    reSubAnchored (matchPlain (("v").toList) (("a").toList))
        (("import a\nimport a.b\n").toList) ≠
      ("import a\nimport a.b\n").toList := by
  refine ⟨by decide, by decide, by decide⟩

/-- C5 amended: with a non-empty namespace, when the per-library loop
completes without error the transformed text is written back, replacing
the file's original content; when the first fatal error is raised while
processing the file, the write is never reached and the file keeps its
original content (the error propagates to the caller). -/
theorem claim_C5_write_back (item ns : Text) (libs : List Text)
    (subs : List (Text → Text)) (text : Text) (hns : ns ≠ []) :
    (∀ t2, rewriteLibs item ns libs (applySubstitutions subs text) = Except.ok t2 →
      rewrite_file_imports item ns libs subs text = (t2, none)) ∧
    (∀ e, rewriteLibs item ns libs (applySubstitutions subs text) = Except.error e →
      rewrite_file_imports item ns libs subs text = (text, some e)) := by
  constructor
  · intro t2 hx
    simp [rewrite_file_imports, hns, hx]
  · intro e hx
    simp [rewrite_file_imports, hns, hx]

/-- Witness for the amended C5: `import a\n` is rewritten and written
back as `from v import a\n`; `import a.b\n` raises and the file keeps its
original content. -/
theorem claim_C5_write_back_witness :
    rewrite_file_imports (("f.py").toList) (("v").toList) [("a").toList] []
        (("import a\n").toList) = ((("from v import a\n").toList), none) ∧
    rewrite_file_imports (("f.py").toList) (("v").toList) [("a").toList] []
        (("import a.b\n").toList) =
      ((("import a.b\n").toList),
        some (VendoringError.mk (("f.py").toList) 1 (("import a.b").toList))) := by
  constructor
  · exact (claim_C5_write_back (("f.py").toList) (("v").toList) [("a").toList] []
      (("import a\n").toList) (by decide)).1 (("from v import a\n").toList) (by decide)
  · exact (claim_C5_write_back (("f.py").toList) (("v").toList) [("a").toList] []
      (("import a.b\n").toList) (by decide)).2
      (VendoringError.mk (("f.py").toList) 1 (("import a.b").toList)) (by decide)

/-- C6: over the top-level entries of the destination directory, in
iteration order, detection returns exactly the directory names together
with the stems of `.py` files as libraries, and reports (and skips) every
other file, continuing the scan; and detection is non-recursive: its
result is unchanged when every entry is pruned to its name and kind,
ignoring directory contents and file contents entirely. -/
theorem claim_C6_detect_vendored_libs (cs : FSForest) :
    detect_vendored_libs cs =
      ((forestList cs).filterMap classifyLib, (forestList cs).filterMap classifyBad) ∧
    detect_vendored_libs (pruneForest cs) = detect_vendored_libs cs :=
  ⟨detect_eq cs, detect_prune cs⟩

/-- Counterexample to C7 as stated: a directory `a` alongside a file
`a.py` makes detection return the name `a` twice — the list of detected
libraries is not duplicate-free in exactly the case the claim singles
out. -/
theorem claim_C7_counterexample :
    (detect_vendored_libs (.cons (.dir (("a").toList) .nil)
        (.cons (.file (("a.py").toList) []) .nil))).1 =
      [("a").toList, ("a").toList] ∧
    ¬ (detect_vendored_libs (.cons (.dir (("a").toList) .nil)
        (.cons (.file (("a.py").toList) []) .nil))).1.Nodup := by
  refine ⟨by decide, by decide⟩

/-- C7 amended: the detected library list can contain duplicates — a
directory `a` next to a file `a.py` yields `a` twice (see the
counterexample) — but it is duplicate-free whenever the top-level entry
names are distinct and no directory name coincides with the stem of a
`.py` file. -/
theorem claim_C7_no_duplicates (cs : FSForest)
    (hnames : ((forestList cs).map treeName).Nodup)
    (hcross : ∀ t1 ∈ forestList cs, ∀ t2 ∈ forestList cs,
      isDirT t1 = true → isPyFileT t2 = true →
      treeName t1 ≠ dropPy (treeName t2)) :
    (detect_vendored_libs cs).1.Nodup := by
  rw [detect_eq cs]
  exact classify_nodup (forestList cs) hnames hcross

/-- Witness for the amended C7: a directory `a`, a file `b.py` and a file
`README` yield the duplicate-free library list `[a, b]`. -/
theorem claim_C7_no_duplicates_witness :
    (detect_vendored_libs (.cons (.dir (("a").toList) .nil)
        (.cons (.file (("b.py").toList) []) (.cons (.file (("README").toList) []) .nil)))).1.Nodup := by
  exact claim_C7_no_duplicates (.cons (.dir (("a").toList) .nil)
      (.cons (.file (("b.py").toList) []) (.cons (.file (("README").toList) []) .nil)))
    (by decide) (by decide)

/-- C8: substitutions run before any import rule, in caller-supplied
order as transformations of the whole file text — the first rule is
applied to the text and every later rule (and the import stage) sees its
output, so a substitution that changes an import line determines which
rule of the import stage subsequently matches — and when the namespace
is the empty string no import rewriting happens at all: the written text
is exactly the text after the substitutions. -/
theorem claim_C8_substitutions_first (item ns : Text) (libs : List Text)
    (f : Text → Text) (subs : List (Text → Text)) (text : Text) (hns : ns ≠ []) :
    applySubstitutions (f :: subs) text = applySubstitutions subs (f text) ∧
    rewrite_file_imports item ns libs subs text =
      (match rewriteLibs item ns libs (applySubstitutions subs text) with
        | Except.ok t2 => (t2, none)
        | Except.error e => (text, some e)) ∧
    rewrite_file_imports item [] libs subs text = (applySubstitutions subs text, none) := by
  refine ⟨rfl, ?_, by simp [rewrite_file_imports]⟩
  simp [rewrite_file_imports, hns]

/-- Witness for C8 with the substitution prepending `x` to the text and
namespace `v`: the substitution output feeds the next stage, the stage
of import rules consumes the substituted text, and the empty namespace
writes the substituted text unchanged. -/
theorem claim_C8_substitutions_first_witness :
    applySubstitutions ((fun t => 'x' :: t) :: []) (("import a").toList) =
      applySubstitutions [] ('x' :: ("import a").toList) ∧
    rewrite_file_imports (("f.py").toList) (("v").toList) [("a").toList] []
        (("import a").toList) =
      (match rewriteLibs (("f.py").toList) (("v").toList) [("a").toList]
          (applySubstitutions [] (("import a").toList)) with
        | Except.ok t2 => (t2, none)
        | Except.error e => ((("import a").toList), some e)) ∧
    rewrite_file_imports (("f.py").toList) [] [("a").toList] [] (("import a").toList) =
      (applySubstitutions [] (("import a").toList), none) := by
  have h1 := claim_C8_substitutions_first (("f.py").toList) (("v").toList) [("a").toList]
    (fun t => 'x' :: t) [] (("import a").toList) (by decide)
  exact ⟨h1.1, h1.2.1, h1.2.2⟩

/-- C9: when a fatal error is raised at some entry of the walk, the walk
halts immediately: entries processed earlier keep their rewritten state,
the offending entry is left in the state the error produced, every entry
after it is neither visited nor written, and the error propagates. -/
theorem claim_C9_fatal_halts_walk (ns : Text) (libs : List Text)
    (subs : List (Text → Text)) (path : Text) (pre pre' : FSForest) (t t' : FSTree)
    (post : FSForest) (e : VendoringError)
    (hok : ForestOk ns libs subs path pre pre')
    (ht : rewriteTree ns libs subs path t = (t', some e)) :
    rewriteForest ns libs subs path (forestAppend pre (.cons t post)) =
      (forestAppend pre' (.cons t' post), some e) :=
  rewriteForest_halt ns libs subs path pre pre' t t' post e hok ht

/-- Witness for C9: with library `a` and namespace `v`, the walk over
`[ok.py, bad.py, after.py]` rewrites `ok.py`, stops at `bad.py` (which
keeps its original content, since the write is never reached), leaves
`after.py` untouched, and reports the error raised at `bad.py`. -/
theorem claim_C9_fatal_halts_walk_witness :
    rewriteForest (("v").toList) [("a").toList] [] (("d").toList)
        (forestAppend (.cons (.file (("ok.py").toList) (("import a\n").toList)) .nil)
          (.cons (.file (("bad.py").toList) (("import a.b\n").toList))
            (.cons (.file (("after.py").toList) (("import a\n").toList)) .nil))) =
      (forestAppend (.cons (.file (("ok.py").toList) (("from v import a\n").toList)) .nil)
        (.cons (.file (("bad.py").toList) (("import a.b\n").toList))
          (.cons (.file (("after.py").toList) (("import a\n").toList)) .nil)),
        some (VendoringError.mk (("d/bad.py").toList) 1 (("import a.b").toList))) := by
  exact claim_C9_fatal_halts_walk (("v").toList) [("a").toList] [] (("d").toList)
    (.cons (.file (("ok.py").toList) (("import a\n").toList)) .nil)
    (.cons (.file (("ok.py").toList) (("from v import a\n").toList)) .nil)
    (.file (("bad.py").toList) (("import a.b\n").toList))
    (.file (("bad.py").toList) (("import a.b\n").toList))
    (.cons (.file (("after.py").toList) (("import a\n").toList)) .nil)
    (VendoringError.mk (("d/bad.py").toList) 1 (("import a.b").toList))
    ⟨by decide, trivial⟩ (by decide)

/-- C10: the walk of `rewrite_imports` preserves the tree's structure
exactly — no file or directory is created, deleted, renamed or moved —
and every file whose name does not end in `.py`, at any depth, keeps its
content: erasing the contents of `.py` files (the only part the rewriter
may change) from the output gives back the same erasure of the input. -/
theorem claim_C10_frame (destPath ns : Text) (libs : List Text)
    (subs : List (Text → Text)) (destination : FSForest) :
    maskForest (rewrite_imports destPath ns libs subs destination).1 =
      maskForest destination :=
  maskForest_rewrite ns libs subs destination destPath

end Vendor
